import Mathlib

/-!
# Verification of `ai_dataset_generator.dataset_transformations.token_classification`

This file embeds the NER label-conversion module of the repository
(`src/ai_dataset_generator/dataset_transformations/token_classification.py`)
into Lean 4 and proves the specification claims about it.

Strings are modelled as `List Char` (`Chars`), so that every operation is a
structurally recursive, kernel-evaluable function.  Python's `str.split`,
`str.strip`, `str.lower`, `re.escape`-literal search, dictionaries
(insertion-ordered association lists) and exceptions (`Except String`)
are embedded directly from the source.

The module delegates to two external black boxes that the specification
describes only as consumed interfaces:

* the spacy tag-scheme bridge (`iob_to_biluo` / `biluo_tags_to_offsets` /
  `offsets_to_biluo_tags` / `biluo_to_iob` over a `Doc`), and
* the blank tokenizer and the huggingface `datasets` container.

These have no code under `src/`; they are modelled from the spec
(definitions marked `Modelled from the spec:`), faithful to its words.
-/

deriving instance DecidableEq for Except

namespace TokenClassification

/-- A Python string, modelled as its list of characters. -/
abbrev Chars := List Char

/-- A character span `(start, end, entity_type)` over a text, half-open,
character based (spec §3, "Span"). -/
abbrev Span := Nat × Nat × Chars

/-- The constant `LABEL_SEPARATOR = "\n"` (source line 11). -/
def labelSeparator : Chars := ['\n']

/-- The constant `LABEL2ENTITY_SEPARATOR = "->"` (source line 12). -/
def label2entitySeparator : Chars := ['-', '>']

/-- The constant `ENTITY_SEPARATOR = ", "` (source line 13). -/
def entitySeparator : Chars := [',', ' ']

/-- Error message of Python `list.remove` (source line 32). -/
def removeErr : String := "ValueError: list.remove(x): x not in list"

/-- Error message of the tuple unpacking at source line 85. -/
def unpackErr : String := "ValueError: unpacking line.split(LABEL2ENTITY_SEPARATOR)"

/-- Error message of the `id2label[label]` lookup (source line 35). -/
def keyErrId : String := "KeyError: id2label"

/-- Error message of the `label2id[tag]` lookup (source line 107). -/
def keyErrLabel : String := "KeyError: label2id"

/-! ## Char-list string primitives (Python `str` operations) -/

/-- Predicate `startsWith2 a b s`: Python `s.startswith(xy)` for the two-character
string `xy = [a, b]`. -/
def startsWith2 (a b : Char) : Chars → Bool
  | c :: d :: _ => c == a && d == b
  | _ => false

/-- Python `s.split(sep)` for a one-character separator `sep = [a]`. -/
def split1 (a : Char) : Chars → List Chars
  | [] => [[]]
  | c :: rest =>
    if c = a then [] :: split1 a rest
    else
      match split1 a rest with
      | [] => [[c]]
      | g :: gs => (c :: g) :: gs

/-- Python `s.split(sep)` for a two-character separator `sep = [a, b]`,
scanning left to right, non-overlapping. -/
def split2 (a b : Char) : Chars → List Chars
  | [] => [[]]
  | [c] => [[c]]
  | c :: d :: rest =>
    if c = a ∧ d = b then [] :: split2 a b rest
    else
      match split2 a b (d :: rest) with
      | [] => [[c]]
      | g :: gs => (c :: g) :: gs

/-- Python `sep.join(parts)` for separator `sep`. -/
def joinSep (sep : Chars) : List Chars → Chars
  | [] => []
  | [x] => x
  | x :: y :: rest => x ++ sep ++ joinSep sep (y :: rest)

/-- Python `s.replace(xy, "")` for a two-character pattern `xy = [a, b]`:
all non-overlapping occurrences deleted. -/
def erase2 (a b : Char) (s : Chars) : Chars := (split2 a b s).flatten

/-- ASCII whitespace, for Python `str.strip()`. -/
def isSpaceChar (c : Char) : Bool := c == ' ' || c == '\t' || c == '\n' || c == '\r'

/-- Python `s.strip()` (ASCII model). -/
def trimL (s : Chars) : Chars :=
  ((s.dropWhile isSpaceChar).reverse.dropWhile isSpaceChar).reverse

/-- Python `s.lower()` (ASCII model). -/
def toLowerL (s : Chars) : Chars := s.map Char.toLower

/-- Predicate `prefixEq e s`: the pattern `e` occurs at the start of `s`. -/
def prefixEq (e s : Chars) : Bool := s.take e.length == e

/-- Proposition `occursAt t e i`: the pattern `e` occurs in `t` at position `i`. -/
def occursAt (t e : Chars) (i : Nat) : Prop := (t.drop i).take e.length = e

instance (t e : Chars) (i : Nat) : Decidable (occursAt t e i) := by
  unfold occursAt; infer_instance

/-- Auxiliary scan for `strFind`: first occurrence of `e` at position `≥ i`. -/
def strFindAux (e : Chars) : Chars → Nat → Option Nat
  | [], i => if e.isEmpty then some i else none
  | c :: rest, i => if prefixEq e (c :: rest) then some i else strFindAux e rest (i + 1)

/-- Python `re.compile(re.escape(entity)).search(text)` (source lines 90–91):
position of the first occurrence of `e` in `t` as a literal substring,
`none` when there is no occurrence. -/
def strFind (t e : Chars) : Option Nat := strFindAux e t 0

/-! ## Dictionaries

Python dicts are modelled as insertion-ordered association lists; a dict
proper has pairwise distinct keys, and lookup returns the first match. -/

/-- Lookup in an `id2label` mapping (Python `id2label[i]`, successful case). -/
def lookupN (m : List (Nat × Chars)) (i : Nat) : Option Chars :=
  match m with
  | [] => none
  | (k, v) :: rest => if k = i then some v else lookupN rest i

/-- Lookup in a string-keyed mapping (Python `d[s]`, successful case). -/
def lookupS (m : List (Chars × Nat)) (s : Chars) : Option Nat :=
  match m with
  | [] => none
  | (k, v) :: rest => if k = s then some v else lookupS rest s

/-- Lookup in the expansion mapping of `replace_token_labels`. -/
def lookupE (m : List (Chars × Chars)) (s : Chars) : Option Chars :=
  match m with
  | [] => none
  | (k, v) :: rest => if k = s then some v else lookupE rest s

/-- The inverse mapping `label2id = {v: k for k, v in id2label.items()}` (source line 71).
Reversal makes first-match lookup agree with the comprehension's
last-write-wins semantics on duplicate values. -/
def label2idOf (i2l : List (Nat × Chars)) : List (Chars × Nat) :=
  (i2l.map (fun p => (p.2, p.1))).reverse

/-! ## Forward converter: `token_labels_to_spans` (source lines 16–54) -/

/-- Python `label.replace("B-", "").replace("I-", "")` (source line 31). -/
def stripBI (t : Chars) : Chars := erase2 'I' '-' (erase2 'B' '-' t)

/-- The computation `label_options = list({...}); label_options.remove("O")`
(source lines 31–32).  The Python set is modelled as `dedup`;
`list.remove` raises `ValueError` when `"O"` is absent. -/
def labelOptionsE (i2l : List (Nat × Chars)) : Except String (List Chars) :=
  let opts := (i2l.map (fun p => stripBI p.2)).dedup
  if ['O'] ∈ opts then .ok (opts.erase ['O'])
  else .error removeErr

/-- Modelled from the spec: the external tag-scheme bridge
(`iob_to_biluo` then `biluo_tags_to_offsets` over `Doc(Vocab(), words=tokens)`,
source lines 35–38).  Spec §4.1: character offsets are taken over the text
reconstructed by joining tokens with single spaces; BIO tags become
`(start, end, entity_type)` spans.  The scan walks `(token, tag)` pairs with
a running character position and an open span; `B-` opens a span, `I-` of
the same type extends it, anything else closes it (restricted to the spec
§3 invariant that every tag is `O` or `{B,I}-TYPE`). -/
def bioOffsetsAux : List (Chars × Chars) → Nat → Option Span → List Span
  | [], _, none => []
  | [], _, some s => [s]
  | (tok, tag) :: rest, pos, cur =>
    let e := pos + tok.length
    if startsWith2 'B' '-' tag then
      cur.toList ++ bioOffsetsAux rest (e + 1) (some (pos, e, tag.drop 2))
    else if startsWith2 'I' '-' tag then
      match cur with
      | some (s, en, l) =>
        if l = tag.drop 2 then bioOffsetsAux rest (e + 1) (some (s, e, l))
        else [(s, en, l)] ++ bioOffsetsAux rest (e + 1) (some (pos, e, tag.drop 2))
      | none => bioOffsetsAux rest (e + 1) (some (pos, e, tag.drop 2))
    else
      cur.toList ++ bioOffsetsAux rest (e + 1) none

/-- Offsets of the BIO-tagged token list (external bridge, modelled). -/
def bioOffsets (tokens tags : List Chars) : List Span :=
  bioOffsetsAux (tokens.zip tags) 0 none

/-- Python slice `doc.text[start:end]` (source line 43). -/
def sliceL (t : Chars) (s e : Nat) : Chars := (t.drop s).take (e - s)

/-- The update `span_labels.setdefault(label, []).append(text)` (source line 43) on an
insertion-ordered dict from entity type to its span texts. -/
def setdefaultApp (d : List (Chars × List Chars)) (k : Chars) (v : Chars) :
    List (Chars × List Chars) :=
  if d.any (fun p => p.1 == k) then
    d.map (fun p => if p.1 == k then (p.1, p.2 ++ [v]) else p)
  else d ++ [(k, [v])]

/-- The `span_labels` dict built by the loop of source lines 41–43, from the
list of `(entity_type, span_text)` pairs in offset order. -/
def groupSpans (pairs : List (Chars × Chars)) : List (Chars × List Chars) :=
  pairs.foldl (fun d p => setdefaultApp d p.1 p.2) []

/-- Source lines 45–48: `", ".join` the texts of each entity type, then emit
one line `f"{k} {LABEL2ENTITY_SEPARATOR} {v}"` per entity type present and
`LABEL_SEPARATOR.join` the lines. -/
def nlFromPairs (pairs : List (Chars × Chars)) : Chars :=
  joinSep labelSeparator
    ((groupSpans pairs).map
      (fun p => p.1 ++ [' '] ++ label2entitySeparator ++ [' '] ++ joinSep entitySeparator p.2))

/-- The `(entity_type, span_text)` pairs of the offsets of one example
(source lines 41–43). -/
def spanPairs (tokens tags : List Chars) : List (Chars × Chars) :=
  let text := joinSep [' '] tokens
  (bioOffsets tokens tags).map (fun o => (o.2.2, sliceL text o.1 o.2.1))

/-- The per-example body `labels_to_spans` of `token_labels_to_spans`
(source lines 34–49): map label ids to BIO tags (`KeyError` when an id is
missing from `id2label`), reconstruct the text, compute spans, and build the
natural-language label string.  Returns the new `(token_column, label_column)`
pair of the example. -/
def encodeRow (i2l : List (Nat × Chars)) (row : List Chars × List Nat) :
    Except String (Chars × Chars) := do
  let tags ← row.2.mapM (fun i =>
    match lookupN i2l i with
    | some t => Except.ok t
    | none => Except.error keyErrId)
  let text := joinSep [' '] row.1
  let pairs := (bioOffsetsAux (row.1.zip tags) 0 none).map
    (fun o => (o.2.2, sliceL text o.1 o.2.1))
  .ok (text, nlFromPairs pairs)

/-- The function `token_labels_to_spans` (source lines 16–54).  The dataset is a list of
`(tokens, label_ids)` rows; the result pairs the transformed rows (text and
natural-language label) with `label_options`.  `label_options` is computed
before the dataset is mapped, so its `ValueError` precedes any row work. -/
def tokenLabelsToSpans (i2l : List (Nat × Chars)) (rows : List (List Chars × List Nat)) :
    Except String (List (Chars × Chars) × List Chars) := do
  let opts ← labelOptionsE i2l
  let rows2 ← rows.mapM (encodeRow i2l)
  .ok (rows2, opts)

/-! ## Backward converter: `spans_to_token_labels` (source lines 56–116) -/

/-- One line of the natural-language label string (source lines 84–87):
`label, entities = x.split(LABEL2ENTITY_SEPARATOR)` raises `ValueError`
unless the split has exactly two parts; then `label.strip()` and
`[entity.strip().lower() for entity in entities.split(ENTITY_SEPARATOR)]`. -/
def parseLine (line : Chars) : Except String (Chars × List Chars) :=
  match split2 '-' '>' line with
  | [l, e] => .ok (trimL l, (split2 ',' ' ' e).map (fun x => toLowerL (trimL x)))
  | _ => .error unpackErr

/-- All lines: `str_label.split(LABEL_SEPARATOR)` (source line 84). -/
def parseLabel (nl : Chars) : Except String (List (Chars × List Chars)) :=
  (split1 '\n' nl).mapM parseLine

/-- The inner entity loop of source lines 88–94: for each span string, search
the lowered text for its first literal occurrence; on a match append
`(match.start(), match.end(), label)` to the accumulated spans, otherwise
`pass` (discard silently). -/
def addEntitySpans (textLow : Chars) (label : Chars) : List Span → List Chars → List Span
  | spans, [] => spans
  | spans, ent :: rest =>
    match strFind textLow ent with
    | some i => addEntitySpans textLow label (spans ++ [(i, i + ent.length, label)]) rest
    | none => addEntitySpans textLow label spans rest

/-- The span-collection loop of source lines 84–94 over all parsed lines. -/
def collectSpans (text : Chars) (lines : List (Chars × List Chars)) : List Span :=
  lines.foldl (fun spans line => addEntitySpans (toLowerL text) line.1 spans line.2) []

/-- Modelled from the spec: the external blank tokenizer
(`spacy.blank("en")`, source lines 96–97), "a blank/default tokenizer
producing a list of token strings for arbitrary input text" (spec §6),
modelled as splitting on spaces.  Returns each token with its start offset
in the text; a token's end offset is `start + length`. -/
def wsTokAux : Chars → Nat → Chars → Nat → List (Chars × Nat)
  | [], _, [], _ => []
  | [], _, acc, st => [(acc.reverse, st)]
  | c :: rest, pos, acc, st =>
    if c = ' ' then
      match acc with
      | [] => wsTokAux rest (pos + 1) [] 0
      | _ => (acc.reverse, st) :: wsTokAux rest (pos + 1) [] 0
    else
      match acc with
      | [] => wsTokAux rest (pos + 1) [c] pos
      | _ => wsTokAux rest (pos + 1) (c :: acc) st

/-- Tokens of a text with their character offsets (modelled tokenizer). -/
def wsTok (t : Chars) : List (Chars × Nat) := wsTokAux t 0 [] 0

/-- End offset of a token produced by `wsTok`. -/
def tokenEnd (p : Chars × Nat) : Nat := p.2 + p.1.length

/-- Modelled from the spec: applying one span to the per-token tag list
(part of `offsets_to_biluo_tags` + `biluo_to_iob`, source line 100).
Spec §4.2: a span whose offsets do not align to token boundaries causes the
whole example's tag computation to fail; overlapping spans are not
arbitrated — last applied wins.  A span aligned at a token start and a token
end tags the covered tokens `B-`/`I-` over whatever was there. -/
def tagSpanStep (toks : List (Chars × Nat)) (tags : List Chars) (sp : Span) :
    Option (List Chars) :=
  if (toks.any (fun p => p.2 == sp.1)) && (toks.any (fun p => tokenEnd p == sp.2.1)) then
    some ((toks.zip tags).map (fun q =>
      if sp.1 ≤ q.1.2 ∧ tokenEnd q.1 ≤ sp.2.1 then
        if q.1.2 = sp.1 then 'B' :: '-' :: sp.2.2 else 'I' :: '-' :: sp.2.2
      else q.2))
  else none

/-- Modelled from the spec: `biluo_to_iob(offsets_to_biluo_tags(doc, spans))`
(source line 100) — BIO tags for the tokenization, all-`O` then each span
applied in order, failing (`ValueError`) on any misaligned span. -/
def alignAll (toks : List (Chars × Nat)) (spans : List Span) : Option (List Chars) :=
  spans.foldlM (tagSpanStep toks) (toks.map (fun _ => ['O']))

/-- The per-example body of `labels_to_spans` inside `spans_to_token_labels`
(source lines 78–107) for one `(text, str_label)` row: `none` when the row is
skipped by `if not str_label: continue`; otherwise the new
`(tokens, label_ids)` pair, with `([], [])` when the tag computation failed
(`except ValueError`, source lines 101–103).  The id mapping
`label2id[tag]` (source line 107) sits outside the `try` and raises
`KeyError` on an unknown tag. -/
def processRow (l2i : List (Chars × Nat)) (row : Chars × Chars) :
    Except String (Option (List Chars × List Nat)) :=
  if row.2.isEmpty then .ok none
  else do
    let lines ← parseLabel row.2
    let spans := collectSpans row.1 lines
    let toks := wsTok row.1
    match alignAll toks spans with
    | none => .ok (some ([], []))
    | some tags => do
      let ids ← tags.mapM (fun t =>
        match lookupS l2i t with
        | some i => Except.ok i
        | none => Except.error keyErrLabel)
      .ok (some (toks.map (fun p => p.1), ids))

/-- The batched map of source line 110: each row processed in order, skipped
rows contributing nothing. -/
def processRows (l2i : List (Chars × Nat)) :
    List (Chars × Chars) → Except String (List (List Chars × List Nat))
  | [] => .ok []
  | r :: rs => do
    let o ← processRow l2i r
    let rest ← processRows l2i rs
    .ok (match o with | none => rest | some v => v :: rest)

/-- The function `spans_to_token_labels` (source lines 56–116): build `label2id`, map the
rows, then `.filter(lambda example: len(example[token_column]) > 0)`
(source line 113).  The dataset container is modelled from the spec as a
list of `(text, str_label)` rows. -/
def spansToTokenLabels (i2l : List (Nat × Chars)) (rows : List (Chars × Chars)) :
    Except String (List (List Chars × List Nat)) := do
  let res ← processRows (label2idOf i2l) rows
  .ok (res.filter (fun r => !r.1.isEmpty))

/-! ## Label remapper: `replace_token_labels` (source lines 119–142) -/

/-- Python `tag.split("-", 1)` restricted to its use site: split at the first
`'-'` (the guard `tag.startswith("B-") or tag.startswith("I-")` guarantees
one is present). -/
def splitOnceDash : Chars → Chars × Chars
  | [] => ([], [])
  | c :: rest =>
    if c = '-' then ([], rest)
    else
      let p := splitOnceDash rest
      (c :: p.1, p.2)

/-- The per-tag body of `replace_token_labels` (source lines 131–141). -/
def replTag (exp : List (Chars × Chars)) (tag : Chars) : Chars :=
  if startsWith2 'B' '-' tag || startsWith2 'I' '-' tag then
    let p := splitOnceDash tag
    match lookupE exp p.2 with
    | some newLabel => p.1 ++ '-' :: newLabel
    | none => tag
  else tag

/-- The function `replace_token_labels` (source lines 119–142). -/
def replaceTokenLabels (i2l : List (Nat × Chars)) (exp : List (Chars × Chars)) :
    List (Nat × Chars) :=
  i2l.map (fun q => (q.1, replTag exp q.2))

/-! ## Running example data (spec §8, Examples 1–4) -/

/-- The label vocabulary of spec Example 1. -/
def demoVocab : List (Nat × Chars) :=
  [(0, "O".data), (1, "B-PER".data), (2, "I-PER".data), (3, "B-LOC".data), (4, "I-LOC".data)]

/-- The token column of spec Example 1. -/
def demoTokens : List Chars := ["John".data, "lives".data, "in".data, "Berlin".data]

/-! ## The label remapper contract (spec §4.3) -/

/-- The per-tag contract of `replace_token_labels` in the spec's words: a tag
carrying a `B-`/`I-` prefix whose entity type (everything after the prefix)
is a key of the expansion map becomes the same prefix followed by the mapped
entity type; every other tag passes through unchanged. -/
def replTagSpec (exp : List (Chars × Chars)) (tag : Chars) : Chars :=
  if startsWith2 'B' '-' tag || startsWith2 'I' '-' tag then
    match lookupE exp (tag.drop 2) with
    | some n => tag.take 2 ++ n
    | none => tag
  else tag

theorem replTag_eq_spec (exp : List (Chars × Chars)) (tag : Chars) :
    replTag exp tag = replTagSpec exp tag := by
  match tag with
  | [] => rfl
  | [c] => rfl
  | c :: d :: rest =>
    by_cases hB : c = 'B' ∧ d = '-'
    · obtain ⟨hc, hd⟩ := hB
      subst hc; subst hd
      simp [replTag, replTagSpec, startsWith2, splitOnceDash]
    · by_cases hI : c = 'I' ∧ d = '-'
      · obtain ⟨hc, hd⟩ := hI
        subst hc; subst hd
        simp [replTag, replTagSpec, startsWith2, splitOnceDash]
      · have hcond : startsWith2 'B' '-' (c :: d :: rest) = false ∧
            startsWith2 'I' '-' (c :: d :: rest) = false := by
          constructor <;>
            simp only [startsWith2, Bool.and_eq_true, beq_iff_eq, Bool.and_eq_false_iff,
              Bool.eq_false_iff, ne_eq] <;> tauto
        simp [replTag, replTagSpec, hcond.1, hcond.2]

theorem replTag_nil_exp (tag : Chars) : replTag [] tag = tag := by
  unfold replTag
  split <;> simp [lookupE]

/-- C7: `replace_token_labels` maps every tag according to the contract — a
`B-`/`I-` prefixed tag whose entity type is a key of the expansion map
becomes the same prefix followed by the mapped type, every other tag passes
through unchanged — as a pure total function; and
`replace_token_labels({0:"O",1:"B-PER",2:"I-PER"}, {"PER":"PERSON"})` equals
`{0:"O",1:"B-PERSON",2:"I-PERSON"}`. -/
theorem c7_replace_token_labels_contract :
    (∀ (i2l : List (Nat × Chars)) (exp : List (Chars × Chars)),
      replaceTokenLabels i2l exp = i2l.map (fun q => (q.1, replTagSpec exp q.2)))
    ∧ replaceTokenLabels [(0, "O".data), (1, "B-PER".data), (2, "I-PER".data)]
        [("PER".data, "PERSON".data)]
      = [(0, "O".data), (1, "B-PERSON".data), (2, "I-PERSON".data)] := by
  constructor
  · intro i2l exp
    unfold replaceTokenLabels
    exact List.map_congr_left (fun q _ => by rw [replTag_eq_spec])
  · decide

/-- C8: a label whose entity type is not a key of the expansion map is left
unchanged, and remapping twice with the empty expansion map equals remapping
once with it. -/
theorem c8_replace_token_labels_idempotent :
    (∀ (exp : List (Chars × Chars)) (tag : Chars),
      lookupE exp ((splitOnceDash tag).2) = none → replTag exp tag = tag)
    ∧ ∀ (m : List (Nat × Chars)),
        replaceTokenLabels (replaceTokenLabels m []) [] = replaceTokenLabels m [] := by
  constructor
  · intro exp tag h
    unfold replTag
    split
    · simp only [h]
    · rfl
  · intro m
    simp [replaceTokenLabels, replTag_nil_exp]

/-- Witness for C8: the tag `B-LOC` is unchanged under the expansion map
`{"PER": "PERSON"}`, and the double application law at a concrete mapping. -/
theorem c8_witness :
    replTag [("PER".data, "PERSON".data)] "B-LOC".data = "B-LOC".data
    ∧ replaceTokenLabels (replaceTokenLabels [(0, "O".data), (1, "B-PER".data)] []) []
      = replaceTokenLabels [(0, "O".data), (1, "B-PER".data)] [] :=
  ⟨c8_replace_token_labels_idempotent.1 [("PER".data, "PERSON".data)] "B-LOC".data (by decide),
   c8_replace_token_labels_idempotent.2 [(0, "O".data), (1, "B-PER".data)]⟩

/-! ## Forward converter claims about `label_options` (C9, C10) -/

theorem labelOptionsE_ok {i2l : List (Nat × Chars)} {opts : List Chars}
    (h : labelOptionsE i2l = .ok opts) :
    opts = ((i2l.map (fun p => stripBI p.2)).dedup).erase ['O'] := by
  by_cases hm : (['O'] : Chars) ∈ (i2l.map (fun p => stripBI p.2)).dedup
  · simp only [labelOptionsE, hm, if_true] at h
    rw [Except.ok.injEq] at h
    exact h.symm
  · simp only [labelOptionsE, hm, if_false] at h
    cases h

theorem tokenLabelsToSpans_ok {i2l : List (Nat × Chars)}
    {rows : List (List Chars × List Nat)} {rows2 : List (Chars × Chars)}
    {opts : List Chars} (h : tokenLabelsToSpans i2l rows = .ok (rows2, opts)) :
    labelOptionsE i2l = .ok opts := by
  unfold tokenLabelsToSpans at h
  cases h1 : labelOptionsE i2l with
  | error e => rw [h1] at h; simp [Bind.bind, Except.bind] at h
  | ok o =>
    rw [h1] at h
    cases h2 : rows.mapM (encodeRow i2l) with
    | error e => rw [h2] at h; simp [Bind.bind, Except.bind] at h
    | ok r =>
      rw [h2] at h
      simp only [Bind.bind, Except.bind, Except.ok.injEq, Prod.mk.injEq] at h
      rw [h.2]

/-- C9: `token_labels_to_spans` returns, alongside the dataset, exactly the
entity type names occurring in the values of `id2label` with `B-`/`I-`
prefixes stripped and the outside label `"O"` excluded; on the vocabulary
`O, B-PER, I-PER, B-LOC, I-LOC` the returned options are exactly
`{PER, LOC}`. -/
theorem c9_label_options :
    (∀ (i2l : List (Nat × Chars)) (rows : List (List Chars × List Nat))
      (rows2 : List (Chars × Chars)) (opts : List Chars),
      tokenLabelsToSpans i2l rows = .ok (rows2, opts) →
      ∀ s, s ∈ opts ↔ (s ≠ ['O'] ∧ ∃ p ∈ i2l, stripBI p.2 = s))
    ∧ (tokenLabelsToSpans demoVocab [] = .ok ([], ["PER".data, "LOC".data])
       ∧ ∀ s, s ∈ [("PER".data : Chars), "LOC".data] ↔ (s = "PER".data ∨ s = "LOC".data)) := by
  refine ⟨?_, by decide, ?_⟩
  · intro i2l rows rows2 opts h s
    have hopts := labelOptionsE_ok (tokenLabelsToSpans_ok h)
    subst hopts
    rw [List.Nodup.mem_erase_iff (List.nodup_dedup _), List.mem_dedup, List.mem_map]
  · intro s
    simp [List.mem_cons]

/-- Witness for C9: the generic characterization applied to the Example 1
vocabulary and the empty dataset, at the entity type `PER`. -/
theorem c9_witness :
    "PER".data ∈ [("PER".data : Chars), "LOC".data] ↔
      ("PER".data ≠ ['O'] ∧ ∃ p ∈ demoVocab, stripBI p.2 = "PER".data) :=
  c9_label_options.1 demoVocab [] [] ["PER".data, "LOC".data] (by decide) "PER".data

/-- C10: when no value of `id2label` strips to the literal outside marker
`"O"`, `token_labels_to_spans` raises (`list.remove` raises `ValueError`)
before transforming any example: the result is that error for every dataset. -/
theorem c10_missing_outside_marker_raises
    (i2l : List (Nat × Chars)) (rows : List (List Chars × List Nat))
    (h : ∀ p ∈ i2l, stripBI p.2 ≠ ['O']) :
    tokenLabelsToSpans i2l rows = .error removeErr := by
  have hmem : (['O'] : Chars) ∉ (i2l.map (fun p => stripBI p.2)).dedup := by
    rw [List.mem_dedup, List.mem_map]
    rintro ⟨p, hp, hps⟩
    exact h p hp hps
  unfold tokenLabelsToSpans labelOptionsE
  simp only [hmem, if_false]
  rfl

/-- Witness for C10: a vocabulary containing only `B-PER` makes the forward
converter raise, whatever the dataset. -/
theorem c10_witness :
    tokenLabelsToSpans [(1, "B-PER".data)] [(demoTokens, [1, 1, 1, 1])]
      = .error removeErr :=
  c10_missing_outside_marker_raises [(1, "B-PER".data)] [(demoTokens, [1, 1, 1, 1])]
    (by decide)

/-! ## Backward converter claims (C4, C5, C6) -/

theorem processRows_empty_label (l2i : List (Chars × Nat)) (pre post : List (Chars × Chars))
    (text : Chars) :
    processRows l2i (pre ++ (text, []) :: post) = processRows l2i (pre ++ post) := by
  induction pre with
  | nil =>
    simp only [List.nil_append, processRows, processRow, List.isEmpty_nil, if_true]
    show Except.bind (Except.ok none) _ = _
    simp only [Except.bind]
    cases h : processRows l2i post with
    | error e => simp [Bind.bind, Except.bind, h]
    | ok v => simp [Bind.bind, Except.bind, h]
  | cons p pre ih =>
    simp only [List.cons_append, processRows, List.append_eq, ih]

/-- C4: an example whose natural-language label string is empty is dropped
entirely by `spans_to_token_labels`, and all other examples are unaffected
by its removal: decoding `pre ++ [(text, "")] ++ post` equals decoding
`pre ++ post`. -/
theorem c4_empty_label_dropped (i2l : List (Nat × Chars)) (pre post : List (Chars × Chars))
    (text : Chars) :
    spansToTokenLabels i2l (pre ++ (text, []) :: post) = spansToTokenLabels i2l (pre ++ post) := by
  unfold spansToTokenLabels
  rw [processRows_empty_label]

/-- C5: when the BIO tag computation of an example fails (a collected span
does not align to token boundaries of the re-tokenized text), the example's
token list and tag list are both set to empty instead of an exception being
raised; and every example whose token list is empty is removed from the
output dataset. -/
theorem c5_alignment_failure_empties :
    (∀ (i2l : List (Nat × Chars)) (text nl : Chars) (lines : List (Chars × List Chars)),
      ¬nl.isEmpty →
      parseLabel nl = .ok lines →
      alignAll (wsTok text) (collectSpans text lines) = none →
      processRow (label2idOf i2l) (text, nl) = .ok (some ([], [])))
    ∧ (∀ (i2l : List (Nat × Chars)) (rows : List (Chars × Chars))
        (res : List (List Chars × List Nat)),
        spansToTokenLabels i2l rows = .ok res → ∀ r ∈ res, r.1 ≠ []) := by
  constructor
  · intro i2l text nl lines hne hparse halign
    unfold processRow
    simp only [Bool.not_eq_true] at hne
    simp only [hne, Bool.false_eq_true, if_false, hparse]
    show Except.bind (Except.ok lines) _ = _
    simp only [Except.bind, halign]
  · intro i2l rows res h r hr
    unfold spansToTokenLabels at h
    cases h1 : processRows (label2idOf i2l) rows with
    | error e => rw [h1] at h; simp [Bind.bind, Except.bind] at h
    | ok v =>
      rw [h1] at h
      simp only [Bind.bind, Except.bind, Except.ok.injEq] at h
      subst h
      have := List.of_mem_filter hr
      simpa [List.isEmpty_iff] using this

/-- Witness for C5: decoding `"PER -> John liv"` over `"John lives in Berlin"`
(span end offset 8 is not a token end) empties the example, and the filtered
output of a successful decode contains no empty token list. -/
theorem c5_witness :
    processRow (label2idOf demoVocab) ("John lives in Berlin".data, "PER -> John liv".data)
      = .ok (some ([], []))
    ∧ (["John".data, "lives".data, "in".data, "Berlin".data], [1, 0, 0, 0]).1 ≠ [] :=
  ⟨c5_alignment_failure_empties.1 demoVocab ("John lives in Berlin".data) ("PER -> John liv".data)
      [("PER".data, ["john liv".data])] (by decide) (by decide) (by decide),
   c5_alignment_failure_empties.2 demoVocab
      [("John lives in Berlin".data, "PER -> John".data)]
      [(["John".data, "lives".data, "in".data, "Berlin".data], [1, 0, 0, 0])] (by decide)
      (["John".data, "lives".data, "in".data, "Berlin".data], [1, 0, 0, 0]) (by decide)⟩

/-- A line of a natural-language label string on which the unpacking
`label, entities = x.split(LABEL2ENTITY_SEPARATOR)` succeeds: the split has
exactly two parts. -/
def goodLine (line : Chars) : Bool := (split2 '-' '>' line).length == 2

/-- All `label2id` lookups that decoding a parsed line can attempt succeed:
`B-`/`I-` of the line's entity type are in the vocabulary. -/
def lineLookupsOk (l2i : List (Chars × Nat)) (line : Chars) : Bool :=
  match parseLine line with
  | .ok pl => (lookupS l2i ('B' :: '-' :: pl.1)).isSome && (lookupS l2i ('I' :: '-' :: pl.1)).isSome
  | .error _ => true

theorem exceptMapM_ok {α β : Type} (f : α → Except String β) :
    ∀ xs : List α, (∀ x ∈ xs, ∃ y, f x = .ok y) →
      ∃ ys, xs.mapM f = .ok ys ∧ ∀ y ∈ ys, ∃ x ∈ xs, f x = .ok y := by
  intro xs
  induction xs with
  | nil => exact fun _ => ⟨[], rfl, by simp⟩
  | cons x xs ih =>
    intro h
    obtain ⟨y, hy⟩ := h x (by simp)
    obtain ⟨ys, hys, hmem⟩ := ih (fun a ha => h a (by simp [ha]))
    refine ⟨y :: ys, ?_, ?_⟩
    · rw [List.mapM_cons, hy, hys]
      rfl
    · intro z hz
      rcases List.mem_cons.mp hz with hz | hz
      · exact ⟨x, by simp, hz ▸ hy⟩
      · obtain ⟨a, ha, hfa⟩ := hmem z hz
        exact ⟨a, by simp [ha], hfa⟩

theorem parseLine_ok_of_goodLine {line : Chars} (h : goodLine line = true) :
    ∃ pl, parseLine line = .ok pl := by
  unfold goodLine at h
  unfold parseLine
  rcases hs : split2 '-' '>' line with _ | ⟨a, _ | ⟨b, _ | ⟨c, t⟩⟩⟩ <;>
    simp [hs] at h ⊢

theorem addEntitySpans_labels (textLow label : Chars) :
    ∀ (ents : List Chars) (spans : List Span),
      ∀ sp ∈ addEntitySpans textLow label spans ents, sp ∈ spans ∨ sp.2.2 = label := by
  intro ents
  induction ents with
  | nil => intro spans sp hsp; exact Or.inl hsp
  | cons ent rest ih =>
    intro spans sp hsp
    unfold addEntitySpans at hsp
    cases hf : strFind textLow ent with
    | some i =>
      rw [hf] at hsp
      rcases ih _ sp hsp with hmem | hlab
      · rcases List.mem_append.mp hmem with hmem | hmem
        · exact Or.inl hmem
        · right
          have : sp = (i, i + ent.length, label) := by simpa using hmem
          rw [this]
      · exact Or.inr hlab
    | none =>
      rw [hf] at hsp
      exact ih _ sp hsp

theorem collectSpans_labels (text : Chars) (lines : List (Chars × List Chars)) :
    ∀ sp ∈ collectSpans text lines, ∃ line ∈ lines, sp.2.2 = line.1 := by
  unfold collectSpans
  suffices hgen : ∀ (ls : List (Chars × List Chars)) (init : List Span),
      ∀ sp ∈ ls.foldl (fun s l => addEntitySpans (toLowerL text) l.1 s l.2) init,
        sp ∈ init ∨ ∃ line ∈ ls, sp.2.2 = line.1 by
    intro sp hsp
    rcases hgen lines [] sp hsp with h | h
    · cases h
    · exact h
  intro ls
  induction ls with
  | nil => intro init sp hsp; exact Or.inl hsp
  | cons l rest ih =>
    intro init sp hsp
    simp only [List.foldl_cons] at hsp
    rcases ih _ sp hsp with hmem | ⟨line, hline, hlab⟩
    · rcases addEntitySpans_labels (toLowerL text) l.1 l.2 init sp hmem with hmem | hlab
      · exact Or.inl hmem
      · exact Or.inr ⟨l, by simp, hlab⟩
    · exact Or.inr ⟨line, by simp [hline], hlab⟩

theorem tagSpanStep_mem {toks : List (Chars × Nat)} {tags : List Chars} {sp : Span}
    {tags2 : List Chars} (h : tagSpanStep toks tags sp = some tags2) :
    ∀ t ∈ tags2, t ∈ tags ∨ t = 'B' :: '-' :: sp.2.2 ∨ t = 'I' :: '-' :: sp.2.2 := by
  unfold tagSpanStep at h
  split at h
  · intro t ht
    rw [Option.some.injEq] at h
    subst h
    obtain ⟨q, hq, hqt⟩ := List.mem_map.mp ht
    by_cases hc : sp.1 ≤ q.1.2 ∧ tokenEnd q.1 ≤ sp.2.1
    · rw [if_pos hc] at hqt
      by_cases hs : q.1.2 = sp.1
      · rw [if_pos hs] at hqt; exact Or.inr (Or.inl hqt.symm)
      · rw [if_neg hs] at hqt; exact Or.inr (Or.inr hqt.symm)
    · rw [if_neg hc] at hqt
      exact Or.inl (hqt ▸ (List.of_mem_zip hq).2)
  · cases h

theorem alignAll_mem {toks : List (Chars × Nat)} {spans : List Span} {tags2 : List Chars}
    (h : alignAll toks spans = some tags2) :
    ∀ t ∈ tags2, t = ['O'] ∨ ∃ sp ∈ spans, t = 'B' :: '-' :: sp.2.2 ∨ t = 'I' :: '-' :: sp.2.2 := by
  unfold alignAll at h
  suffices hgen : ∀ (sps : List Span) (init tags2 : List Chars),
      sps.foldlM (tagSpanStep toks) init = some tags2 →
      ∀ t ∈ tags2, t ∈ init ∨ ∃ sp ∈ sps, t = 'B' :: '-' :: sp.2.2 ∨ t = 'I' :: '-' :: sp.2.2 by
    intro t ht
    rcases hgen spans _ tags2 h t ht with hmem | hsp
    · obtain ⟨_, _, hval⟩ := List.mem_map.mp hmem
      exact Or.inl hval.symm
    · exact Or.inr hsp
  intro sps
  induction sps with
  | nil =>
    intro init tags2 h t ht
    simp only [List.foldlM_nil, Option.some.injEq, pure, Option.pure_def] at h
    subst h
    exact Or.inl ht
  | cons sp rest ih =>
    intro init tags2 h t ht
    rw [List.foldlM_cons] at h
    cases hstep : tagSpanStep toks init sp with
    | none => rw [hstep] at h; cases h
    | some mid =>
      rw [hstep] at h
      simp only [Option.bind_eq_bind, Option.some_bind] at h
      rcases ih mid tags2 h t ht with hmem | ⟨sp2, hsp2, ht2⟩
      · rcases tagSpanStep_mem hstep t hmem with hmem | hbi
        · exact Or.inl hmem
        · exact Or.inr ⟨sp, by simp, hbi⟩
      · exact Or.inr ⟨sp2, by simp [hsp2], ht2⟩

theorem processRow_ok (l2i : List (Chars × Nat)) (row : Chars × Chars)
    (hO : (lookupS l2i ['O']).isSome = true)
    (h : row.2.isEmpty = false → ∀ line ∈ split1 '\n' row.2,
        goodLine line = true ∧ lineLookupsOk l2i line = true) :
    ∃ r, processRow l2i row = .ok r := by
  cases he : row.2.isEmpty with
  | true => exact ⟨none, by unfold processRow; rw [he]; rfl⟩
  | false =>
    have hl := h he
    obtain ⟨lines, hlines, hlinesMem⟩ := exceptMapM_ok parseLine (split1 '\n' row.2)
      (fun line hm => parseLine_ok_of_goodLine (hl line hm).1)
    cases halign : alignAll (wsTok row.1) (collectSpans row.1 lines) with
    | none =>
      refine ⟨some ([], []), ?_⟩
      unfold processRow parseLabel
      rw [if_neg (by simp [he])]
      simp only [hlines, Bind.bind, Except.bind, halign]
    | some tags =>
      have hlook : ∀ t ∈ tags, ∃ i, lookupS l2i t = some i := by
        intro t ht
        rcases alignAll_mem halign t ht with hto | ⟨sp, hsp, hbi⟩
        · subst hto
          exact Option.isSome_iff_exists.mp hO
        · obtain ⟨line, hline, hlab⟩ := collectSpans_labels row.1 lines sp hsp
          obtain ⟨orig, horig, hparse⟩ := hlinesMem line hline
          have hok := (hl orig horig).2
          unfold lineLookupsOk at hok
          rw [hparse] at hok
          rw [Bool.and_eq_true] at hok
          rcases hbi with hbi | hbi <;> rw [hbi, hlab]
          · exact Option.isSome_iff_exists.mp hok.1
          · exact Option.isSome_iff_exists.mp hok.2
      obtain ⟨ids, hids, _⟩ := exceptMapM_ok
        (fun t => match lookupS l2i t with
          | some i => Except.ok i
          | none => Except.error keyErrLabel) tags
        (fun t ht => by
          obtain ⟨i, hi⟩ := hlook t ht
          refine ⟨i, ?_⟩
          show (match lookupS l2i t with
            | some i => Except.ok i
            | none => Except.error keyErrLabel) = Except.ok i
          rw [hi])
      refine ⟨some ((wsTok row.1).map (fun p => p.1), ids), ?_⟩
      unfold processRow parseLabel
      rw [if_neg (by simp [he])]
      simp only [hlines, Bind.bind, Except.bind, halign, hids]

theorem processRows_ok (l2i : List (Chars × Nat)) :
    ∀ rows : List (Chars × Chars), (∀ row ∈ rows, ∃ r, processRow l2i row = .ok r) →
      ∃ rs, processRows l2i rows = .ok rs := by
  intro rows
  induction rows with
  | nil => exact fun _ => ⟨[], rfl⟩
  | cons r rest ih =>
    intro h
    obtain ⟨o, ho⟩ := h r (by simp)
    obtain ⟨rs, hrs⟩ := ih (fun a ha => h a (by simp [ha]))
    cases o with
    | none => exact ⟨rs, by unfold processRows; simp only [ho, hrs, Bind.bind, Except.bind]⟩
    | some v =>
      exact ⟨v :: rs, by unfold processRows; simp only [ho, hrs, Bind.bind, Except.bind]⟩

/-- C6 counterexample: the claim that no exception is ever surfaced under
normal malformed-label input is false — decoding the malformed label
`"PER John"` (no `->` separator in the line) raises an uncaught `ValueError`
from the tuple unpacking of `line.split(LABEL2ENTITY_SEPARATOR)`. -/
theorem c6_counterexample :
    spansToTokenLabels demoVocab [("John lives in Berlin".data, "PER John".data)]
      = .error unpackErr := by decide

/-- C6 (amended): `spans_to_token_labels` surfaces no exception provided
every line of every nonempty label string splits into exactly two parts on
the `->` separator and the vocabulary contains `O` and the `B-`/`I-` tags of
every parsed entity type; within that domain all degradation (unmatched
spans, emptied examples) is silent. -/
theorem c6_no_exception_on_wellformed_lines (i2l : List (Nat × Chars))
    (rows : List (Chars × Chars))
    (hO : (lookupS (label2idOf i2l) ['O']).isSome = true)
    (h : ∀ row ∈ rows, row.2.isEmpty = false → ∀ line ∈ split1 '\n' row.2,
        goodLine line = true ∧ lineLookupsOk (label2idOf i2l) line = true) :
    ∃ res, spansToTokenLabels i2l rows = .ok res := by
  obtain ⟨rs, hrs⟩ := processRows_ok (label2idOf i2l) rows
    (fun row hrow => processRow_ok _ row hO (h row hrow))
  refine ⟨rs.filter (fun r => !r.1.isEmpty), ?_⟩
  unfold spansToTokenLabels
  rw [hrs]
  rfl

/-- Whether an `Except` value is a success. -/
def isOkE {ε α : Type} : Except ε α → Bool
  | .ok _ => true
  | .error _ => false

/-- Witness for the amended C6: decoding a batch with an unmatched span, an
empty label and a well-formed line over the Example 1 vocabulary raises no
exception. -/
theorem c6_witness :
    isOkE (spansToTokenLabels demoVocab
      [("John lives in Berlin".data, "PER -> Mary, Berlin".data),
       ("A b".data, []),
       ("John lives in Berlin".data, "PER -> John liv".data)]) = true := by
  obtain ⟨res, hres⟩ := c6_no_exception_on_wellformed_lines demoVocab
    [("John lives in Berlin".data, "PER -> Mary, Berlin".data),
     ("A b".data, []),
     ("John lives in Berlin".data, "PER -> John liv".data)]
    (by decide) (by decide)
  rw [hres]
  rfl

/-! ## Span search characterization (C3) -/

theorem strFindAux_shift (e : Chars) :
    ∀ (t : Chars) (i : Nat), strFindAux e t (i + 1) = (strFindAux e t i).map (· + 1) := by
  intro t
  induction t with
  | nil =>
    intro i
    unfold strFindAux
    split <;> rfl
  | cons c rest ih =>
    intro i
    unfold strFindAux
    split
    · rfl
    · exact ih (i + 1)

theorem strFind_cons (c : Char) (rest e : Chars) :
    strFind (c :: rest) e =
      if prefixEq e (c :: rest) then some 0 else (strFind rest e).map (· + 1) := by
  unfold strFind
  by_cases hp : prefixEq e (c :: rest) = true
  · rw [if_pos hp]
    show (if prefixEq e (c :: rest) then some 0 else strFindAux e rest (0 + 1)) = some 0
    rw [if_pos hp]
  · rw [if_neg hp]
    show (if prefixEq e (c :: rest) then some 0 else strFindAux e rest (0 + 1)) = _
    rw [if_neg hp]
    exact strFindAux_shift e rest 0

theorem occursAt_zero (t e : Chars) : occursAt t e 0 ↔ prefixEq e t = true := by
  unfold occursAt prefixEq
  rw [List.drop_zero, beq_iff_eq]

theorem occursAt_succ (c : Char) (rest e : Chars) (j : Nat) :
    occursAt (c :: rest) e (j + 1) ↔ occursAt rest e j := Iff.rfl

theorem strFind_some :
    ∀ (t e : Chars) (i : Nat), strFind t e = some i →
      occursAt t e i ∧ ∀ j, j < i → ¬occursAt t e j := by
  intro t
  induction t with
  | nil =>
    intro e i h
    unfold strFind strFindAux at h
    split at h
    · rw [Option.some.injEq] at h
      subst h
      refine ⟨?_, fun j hj => absurd hj (by omega)⟩
      unfold occursAt
      simp only [List.drop_nil, List.take_nil]
      exact (List.isEmpty_iff.mp (by assumption)).symm
    · cases h
  | cons c rest ih =>
    intro e i h
    rw [strFind_cons] at h
    split at h
    · rw [Option.some.injEq] at h
      subst h
      exact ⟨(occursAt_zero _ _).mpr (by assumption), fun j hj => absurd hj (by omega)⟩
    · obtain ⟨i2, hi2, hplus⟩ := Option.map_eq_some'.mp h
      subst hplus
      obtain ⟨hocc, hmin⟩ := ih e i2 hi2
      refine ⟨(occursAt_succ c rest e i2).mpr hocc, ?_⟩
      intro j hj
      cases j with
      | zero =>
        rw [occursAt_zero]
        simp only [Bool.not_eq_true]
        exact Bool.not_eq_true _ ▸ (by simpa using (by assumption : ¬prefixEq e (c :: rest) = true))
      | succ j2 =>
        rw [occursAt_succ]
        exact hmin j2 (by omega)

theorem strFind_none :
    ∀ (t e : Chars), strFind t e = none → ∀ j, ¬occursAt t e j := by
  intro t
  induction t with
  | nil =>
    intro e h j hocc
    unfold strFind strFindAux at h
    split at h
    · cases h
    · unfold occursAt at hocc
      simp only [List.drop_nil, List.take_nil] at hocc
      have : e.isEmpty = true := List.isEmpty_iff.mpr hocc.symm
      simp_all
  | cons c rest ih =>
    intro e h j hocc
    rw [strFind_cons] at h
    split at h
    · cases h
    · cases j with
      | zero => exact (by assumption : ¬prefixEq e (c :: rest) = true) ((occursAt_zero _ _).mp hocc)
      | succ j2 =>
        exact ih e (Option.map_eq_none'.mp h) j2 ((occursAt_succ c rest e j2).mp hocc)

theorem addEntitySpans_eq (tl lab : Chars) :
    ∀ (ents : List Chars) (spans : List Span),
      addEntitySpans tl lab spans ents =
        spans ++ ents.filterMap (fun ent =>
          (strFind tl ent).map (fun i => (i, i + ent.length, lab))) := by
  intro ents
  induction ents with
  | nil => intro spans; simp [addEntitySpans]
  | cons ent rest ih =>
    intro spans
    cases hf : strFind tl ent with
    | some i =>
      simp only [addEntitySpans, hf]
      rw [ih, List.filterMap_cons]
      simp [hf, List.append_assoc]
    | none =>
      simp only [addEntitySpans, hf]
      rw [ih, List.filterMap_cons]
      simp [hf]

/-- C3: the span-collection loop of `spans_to_token_labels` records, for
each span string in order, the span
`(match_start, match_end, entity_type)` of the first literal occurrence of
the (already trimmed and lower-cased) span text in the lower-cased example
text, silently discarding span strings with no occurrence while still
processing the remaining ones (= a `filterMap` over the parsed lines); and
`strFind` returns the position of the first occurrence (none ↔ no
occurrence anywhere). -/
theorem c3_span_search :
    (∀ (text : Chars) (lines : List (Chars × List Chars)),
      collectSpans text lines =
        (lines.map (fun line => line.2.filterMap (fun ent =>
          (strFind (toLowerL text) ent).map (fun i => (i, i + ent.length, line.1))))).flatten)
    ∧ (∀ (t e : Chars) (i : Nat), strFind t e = some i →
        occursAt t e i ∧ ∀ j, j < i → ¬occursAt t e j)
    ∧ (∀ (t e : Chars), strFind t e = none → ∀ j, ¬occursAt t e j) := by
  refine ⟨?_, strFind_some, strFind_none⟩
  intro text lines
  unfold collectSpans
  suffices hgen : ∀ (ls : List (Chars × List Chars)) (init : List Span),
      ls.foldl (fun s l => addEntitySpans (toLowerL text) l.1 s l.2) init =
        init ++ (ls.map (fun line => line.2.filterMap (fun ent =>
          (strFind (toLowerL text) ent).map (fun i => (i, i + ent.length, line.1))))).flatten by
    rw [hgen lines []]
    rfl
  intro ls
  induction ls with
  | nil => intro init; simp
  | cons l rest ih =>
    intro init
    rw [List.foldl_cons, ih, addEntitySpans_eq]
    simp [List.append_assoc]

/-- Witness for C3: searching `"xjohn"` for `"john"` finds position 1 and no
occurrence at position 0; searching for `"mary"` finds nothing at 0. -/
theorem c3_witness :
    (occursAt ("xjohn".data) ("john".data) 1 ∧ ¬occursAt ("xjohn".data) ("john".data) 0)
    ∧ ¬occursAt ("xjohn".data) ("mary".data) 0 := by
  refine ⟨?_, ?_⟩
  · have h := c3_span_search.2.1 ("xjohn".data) ("john".data) 1 (by decide)
    exact ⟨h.1, h.2 0 (by decide)⟩
  · exact c3_span_search.2.2 ("xjohn".data) ("mary".data) (by decide) 0

/-! ## Natural-language label format (C1) -/

/-- The entity types of a pair list in first-seen order (the iteration order
of a Python insertion-ordered dict built with `setdefault`). -/
def firstSeen : List Chars → List Chars
  | [] => []
  | x :: xs => x :: (firstSeen xs).filter (fun y => y != x)

theorem firstSeen_cons (x : Chars) (xs : List Chars) :
    firstSeen (x :: xs) = x :: (firstSeen xs).filter (fun y => y != x) := rfl

theorem mem_firstSeen {x : Chars} : ∀ {l : List Chars}, x ∈ firstSeen l → x ∈ l := by
  intro l
  induction l with
  | nil => intro h; cases h
  | cons y ys ih =>
    intro h
    rcases List.mem_cons.mp h with h | h
    · exact h ▸ List.mem_cons_self y ys
    · exact List.mem_cons_of_mem y (ih (List.mem_of_mem_filter h))

theorem firstSeen_filter (q : Chars → Bool) :
    ∀ l : List Chars, firstSeen (l.filter q) = (firstSeen l).filter q := by
  intro l
  induction l with
  | nil => rfl
  | cons x xs ih =>
    cases hq : q x with
    | true =>
      rw [List.filter_cons_of_pos hq]
      show x :: (firstSeen (xs.filter q)).filter (fun y => y != x)
        = (x :: (firstSeen xs).filter (fun y => y != x)).filter q
      rw [List.filter_cons_of_pos hq, ih, List.filter_filter, List.filter_filter]
      exact congrArg _ (List.filter_congr (fun a _ => by rw [Bool.and_comm]))
    | false =>
      rw [List.filter_cons_of_neg (by simp [hq])]
      show firstSeen (xs.filter q) = (x :: (firstSeen xs).filter (fun y => y != x)).filter q
      rw [List.filter_cons_of_neg (by simp [hq]), ih, List.filter_filter]
      refine (List.filter_congr (fun a _ => ?_)).symm
      by_cases ha : a = x
      · subst ha; simp [hq]
      · simp [bne, beq_eq_false_iff_ne, ha]

theorem foldl_setdefaultApp :
    ∀ (pairs : List (Chars × Chars)) (d : List (Chars × List Chars)),
      pairs.foldl (fun acc p => setdefaultApp acc p.1 p.2) d
      = d.map (fun kv => (kv.1, kv.2 ++ (pairs.filter (fun p => p.1 == kv.1)).map Prod.snd))
        ++ (firstSeen ((pairs.map Prod.fst).filter
              (fun kk => !(d.any (fun q => q.1 == kk))))).map
            (fun l => (l, (pairs.filter (fun p => p.1 == l)).map Prod.snd)) := by
  intro pairs
  induction pairs with
  | nil =>
    intro d
    simp [firstSeen]
  | cons p rest ih =>
    obtain ⟨k, v⟩ := p
    intro d
    rw [List.foldl_cons]
    rw [ih (setdefaultApp d k v)]
    cases hk : d.any (fun q => q.1 == k) with
    | true =>
      have hsd : setdefaultApp d k v
          = d.map (fun q => if q.1 == k then (q.1, q.2 ++ [v]) else q) := by
        unfold setdefaultApp
        rw [if_pos hk]
      rw [hsd, List.map_map]
      have hcomp : ((fun q => (q.1 : Chars)) ∘
          (fun q => if (q.1 : Chars) == k then (q.1, q.2 ++ [v]) else q))
          = (fun (q : Chars × List Chars) => q.1) := by
        funext q
        by_cases hq : q.1 = k <;> simp [hq]
      have hany : ∀ kk, ((d.map (fun q => if q.1 == k then (q.1, q.2 ++ [v]) else q)).any
          (fun q => q.1 == kk)) = d.any (fun q => q.1 == kk) := by
        intro kk
        rw [List.any_map]
        have : ((fun (q : Chars × List Chars) => q.1 == kk) ∘
            (fun q => if (q.1 : Chars) == k then (q.1, q.2 ++ [v]) else q))
            = (fun (q : Chars × List Chars) => q.1 == kk) := by
          funext q
          by_cases hq : q.1 = k <;> simp [hq]
        rw [this]
      congr 1
      · refine List.map_congr_left (fun kv _ => ?_)
        simp only [Function.comp]
        by_cases hkv : kv.1 == k
        · have hkq : (k == kv.1) = true := by
            rw [beq_iff_eq] at hkv ⊢
            exact hkv.symm
          rw [if_pos hkv]
          show (kv.1, kv.2 ++ [v] ++ _) = _
          rw [List.filter_cons]
          show _ = (kv.1, kv.2 ++ List.map Prod.snd (if (k == kv.1) = true then _ else _))
          rw [hkq]
          simp [List.append_assoc]
        · have hkq : (k == kv.1) = false := by
            rw [Bool.beq_comm]
            simpa using hkv
          rw [if_neg hkv]
          rw [List.filter_cons]
          show _ = (kv.1, kv.2 ++ List.map Prod.snd (if (k == kv.1) = true then _ else _))
          rw [hkq]
          simp
      · rw [show List.map Prod.fst ((k, v) :: rest) = k :: List.map Prod.fst rest from rfl]
        rw [List.filter_cons_of_neg (by simp [hk])]
        have heq : ((rest.map Prod.fst).filter
            (fun kk => !((d.map (fun q => if q.1 == k then (q.1, q.2 ++ [v]) else q)).any
              (fun q => q.1 == kk))))
            = (rest.map Prod.fst).filter (fun kk => !(d.any (fun q => q.1 == kk))) :=
          List.filter_congr (fun kk _ => by rw [hany kk])
        rw [heq]
        refine List.map_congr_left (fun l hl => ?_)
        have hlk : (k == l) = false := by
          have hmem := mem_firstSeen hl
          have hPl := List.of_mem_filter hmem
          rw [beq_eq_false_iff_ne]
          intro hkl
          subst hkl
          simp [hk] at hPl
        rw [List.filter_cons, hlk]
        simp
    | false =>
      have hnotmem : ∀ q ∈ d, (q.1 == k) = false := by
        intro q hq
        simpa using List.any_eq_false.mp hk q hq
      have hsd : setdefaultApp d k v = d ++ [(k, [v])] := by
        unfold setdefaultApp
        rw [if_neg (by simp [hk])]
      rw [hsd, List.map_append, List.map_singleton]
      have hpred : ((rest.map Prod.fst).filter
          (fun kk => !((d ++ [(k, [v])]).any (fun q => q.1 == kk))))
          = ((rest.map Prod.fst).filter
              (fun kk => !(d.any (fun q => q.1 == kk)))).filter (fun kk => !(k == kk)) := by
        rw [List.filter_filter]
        refine List.filter_congr (fun kk _ => ?_)
        simp only [List.any_append, List.any_cons, List.any_nil, Bool.or_false, Bool.not_or]
        rw [Bool.and_comm]
      rw [hpred, firstSeen_filter]
      rw [show List.map Prod.fst ((k, v) :: rest) = k :: List.map Prod.fst rest from rfl]
      rw [List.filter_cons_of_pos (by simp [hk])]
      rw [firstSeen_cons, List.map_cons]
      rw [List.append_assoc, List.singleton_append]
      congr 1
      · refine List.map_congr_left (fun kv hkv => ?_)
        have h2 : (k == kv.1) = false := by
          rw [Bool.beq_comm]
          exact hnotmem kv hkv
        rw [List.filter_cons]
        show _ = (kv.1, kv.2 ++ List.map Prod.snd (if (k == kv.1) = true then _ else _))
        rw [h2]
        simp
      congr 1
      · rw [List.filter_cons]
        show _ = (k, List.map Prod.snd (if (k == k) = true then _ else _))
        rw [beq_self_eq_true]
        simp
      · have hq : ((firstSeen ((rest.map Prod.fst).filter
            (fun kk => !(d.any (fun q => q.1 == kk))))).filter (fun kk => !(k == kk)))
            = ((firstSeen ((rest.map Prod.fst).filter
              (fun kk => !(d.any (fun q => q.1 == kk))))).filter (fun y => y != k)) :=
          List.filter_congr (fun a _ => by rw [bne, Bool.beq_comm])
        rw [hq]
        refine List.map_congr_left (fun l hl => ?_)
        have hlk : (k == l) = false := by
          have := List.of_mem_filter hl
          rw [bne] at this
          rw [Bool.beq_comm]
          simpa using this
        rw [List.filter_cons]
        show _ = (l, List.map Prod.snd (if (k == l) = true then _ else _))
        rw [hlk]
        simp

/-- C1: the natural-language label string consists of one line per entity
type that has at least one span — `"{TYPE} -> {span1}, {span2}, ..."` —
joined by the newline separator, with entity types in first-seen order,
span texts within a type comma-joined in first-seen order, and types with
no spans omitted; and the Example 1 tokens `John lives in Berlin` with tags
`B-PER, O, O, B-LOC` yield exactly `"PER -> John\nLOC -> Berlin"`. -/
theorem c1_natural_language_format :
    (∀ pairs : List (Chars × Chars),
      nlFromPairs pairs =
        joinSep ['\n'] ((firstSeen (pairs.map Prod.fst)).map (fun l =>
          l ++ [' ', '-', '>', ' '] ++
            joinSep [',', ' '] ((pairs.filter (fun p => p.1 == l)).map Prod.snd))))
    ∧ tokenLabelsToSpans demoVocab [(demoTokens, [1, 0, 0, 3])]
      = .ok ([("John lives in Berlin".data, "PER -> John\nLOC -> Berlin".data)],
          ["PER".data, "LOC".data]) := by
  constructor
  · intro pairs
    unfold nlFromPairs groupSpans
    rw [foldl_setdefaultApp pairs []]
    simp only [List.map_nil, List.nil_append, List.any_nil, Bool.not_false, List.filter_true,
      List.map_map]
    refine congrArg _ (List.map_congr_left (fun l _ => ?_))
    simp [label2entitySeparator, entitySeparator, List.append_assoc]
  · decide

/-! ## Round trip for a simple single-entity example (C2) -/

/-- Character offset of the token following the given tokens in the
space-joined text (each token contributes its length plus one space). -/
def sumLen : List Chars → Nat
  | [] => 0
  | t :: rest => t.length + 1 + sumLen rest

/-- The tokens of a space-joined token list together with their character
start offsets. -/
def tws : List Chars → List (Chars × Nat)
  | [] => []
  | t :: rest => (t, 0) :: (tws rest).map (fun p => (p.1, p.2 + (t.length + 1)))

theorem joinSep_cons_of_ne_nil (sep x : Chars) {l : List Chars} (h : l ≠ []) :
    joinSep sep (x :: l) = x ++ sep ++ joinSep sep l := by
  cases l with
  | nil => exact absurd rfl h
  | cons y rest => rfl

theorem drop_len_add {α : Type} :
    ∀ (l₁ l₂ : List α) (n : Nat), (l₁ ++ l₂).drop (l₁.length + n) = l₂.drop n := by
  intro l₁
  induction l₁ with
  | nil => intro l₂ n; simp
  | cons a l ih =>
    intro l₂ n
    show (a :: (l ++ l₂)).drop (l.length + 1 + n) = _
    have harith : l.length + 1 + n = (l.length + n) + 1 := by omega
    rw [harith, List.drop_succ_cons, ih]

theorem drop_sumLen_join :
    ∀ (pre rest : List Chars), rest ≠ [] →
      (joinSep [' '] (pre ++ rest)).drop (sumLen pre) = joinSep [' '] rest := by
  intro pre
  induction pre with
  | nil => intro rest _; rfl
  | cons t pre ih =>
    intro rest hrest
    have hne : pre ++ rest ≠ [] := by
      intro h
      exact hrest (List.append_eq_nil.mp h).2
    rw [List.cons_append, joinSep_cons_of_ne_nil [' '] t hne]
    have hsum : sumLen (t :: pre) = t.length + (sumLen pre + 1) := by
      simp only [sumLen]
      omega
    rw [hsum, List.append_assoc, drop_len_add]
    show (' ' :: joinSep [' '] (pre ++ rest)).drop (sumLen pre + 1) = _
    rw [List.drop_succ_cons]
    exact ih rest hrest

theorem take_len_join :
    ∀ (x : Chars) (rest : List Chars), (joinSep [' '] (x :: rest)).take x.length = x := by
  intro x rest
  cases rest with
  | nil => exact List.take_length x
  | cons y more =>
    rw [joinSep_cons_of_ne_nil [' '] x (by simp)]
    rw [List.append_assoc]
    exact List.take_left x _

theorem slice_entity (pre post : List Chars) (ent : Chars) :
    sliceL (joinSep [' '] (pre ++ ent :: post)) (sumLen pre) (sumLen pre + ent.length)
      = ent := by
  unfold sliceL
  rw [drop_sumLen_join pre (ent :: post) (by simp)]
  rw [Nat.add_sub_cancel_left]
  exact take_len_join ent post

theorem split1_of_not_mem {a : Char} : ∀ {l : Chars}, a ∉ l → split1 a l = [l] := by
  intro l
  induction l with
  | nil => intro _; rfl
  | cons c rest ih =>
    intro h
    have hca : ¬c = a := fun hc => h (hc ▸ List.mem_cons_self c rest)
    unfold split1
    rw [if_neg hca, ih (fun hm => h (List.mem_cons_of_mem c hm))]

theorem split2_of_not_mem {a b : Char} : ∀ {l : Chars}, a ∉ l → split2 a b l = [l] := by
  intro l
  induction l with
  | nil => intro _; rfl
  | cons c rest ih =>
    intro h
    have hca : ¬c = a := fun hc => h (hc ▸ List.mem_cons_self c rest)
    cases rest with
    | nil => rfl
    | cons d more =>
      unfold split2
      rw [if_neg (fun hp => hca hp.1)]
      rw [ih (fun hm => h (List.mem_cons_of_mem c hm))]

theorem split2_once {a b : Char} :
    ∀ (x y : Chars), a ∉ x → a ∉ y → split2 a b (x ++ a :: b :: y) = [x, y] := by
  intro x
  induction x with
  | nil =>
    intro y _ hy
    show split2 a b (a :: b :: y) = [[], y]
    unfold split2
    rw [if_pos ⟨rfl, rfl⟩, split2_of_not_mem hy]
  | cons c x ih =>
    intro y hx hy
    have hca : ¬c = a := fun hc => hx (hc ▸ List.mem_cons_self c x)
    have hxa : a ∉ x := fun hm => hx (List.mem_cons_of_mem c hm)
    cases x with
    | nil =>
      show split2 a b (c :: a :: b :: y) = [[c], y]
      unfold split2
      rw [if_neg (fun hp => hca hp.1)]
      rw [show split2 a b (a :: b :: y) = [[], y] from ih y hxa hy]
    | cons e x2 =>
      show split2 a b (c :: e :: (x2 ++ a :: b :: y)) = [c :: e :: x2, y]
      unfold split2
      have hea : ¬(c = a ∧ e = b) := fun hp => hca hp.1
      rw [if_neg hea]
      rw [show e :: (x2 ++ a :: b :: y) = (e :: x2) ++ a :: b :: y from rfl]
      rw [ih y hxa hy]

theorem dropWhile_eq_self_of_all {p : Char → Bool} :
    ∀ {l : Chars}, (∀ c ∈ l, p c = false) → l.dropWhile p = l := by
  intro l
  cases l with
  | nil => intro _; rfl
  | cons c rest =>
    intro h
    rw [List.dropWhile_cons, h c (List.mem_cons_self c rest)]
    simp

theorem trimL_eq_self {l : Chars} (h : ∀ c ∈ l, isSpaceChar c = false) : trimL l = l := by
  unfold trimL
  rw [dropWhile_eq_self_of_all h]
  rw [dropWhile_eq_self_of_all (fun c hc => h c (List.mem_reverse.mp hc))]
  exact List.reverse_reverse l

theorem trimL_cons_space {l : Chars} (h : ∀ c ∈ l, isSpaceChar c = false) :
    trimL (' ' :: l) = l := by
  unfold trimL
  rw [List.dropWhile_cons]
  have hsp : isSpaceChar ' ' = true := rfl
  rw [hsp]
  simp only [if_true]
  rw [dropWhile_eq_self_of_all h]
  rw [dropWhile_eq_self_of_all (fun c hc => h c (List.mem_reverse.mp hc))]
  exact List.reverse_reverse l

theorem trimL_append_space {l : Chars} (hne : l ≠ [])
    (h : ∀ c ∈ l, isSpaceChar c = false) : trimL (l ++ [' ']) = l := by
  unfold trimL
  have hfront : (l ++ [' ']).dropWhile isSpaceChar = l ++ [' '] := by
    cases l with
    | nil => exact absurd rfl hne
    | cons c rest =>
      rw [List.cons_append, List.dropWhile_cons, h c (List.mem_cons_self c rest)]
      simp
  rw [hfront]
  simp only [List.reverse_append, List.reverse_cons, List.reverse_nil, List.nil_append,
    List.singleton_append]
  show ((' ' :: l.reverse).dropWhile isSpaceChar).reverse = l
  rw [List.dropWhile_cons]
  have hsp : isSpaceChar ' ' = true := rfl
  rw [hsp]
  simp only [if_true]
  rw [dropWhile_eq_self_of_all (fun c hc => h c (List.mem_reverse.mp hc))]
  exact List.reverse_reverse l

theorem toLowerL_length (l : Chars) : (toLowerL l).length = l.length := by
  unfold toLowerL
  exact List.length_map l Char.toLower

theorem exceptMapM_map {α β : Type} (f : α → Except String β) (g : α → β) :
    ∀ xs : List α, (∀ x ∈ xs, f x = .ok (g x)) → xs.mapM f = .ok (xs.map g) := by
  intro xs
  induction xs with
  | nil => intro _; rfl
  | cons x xs ih =>
    intro h
    rw [List.mapM_cons, h x (by simp), ih (fun a ha => h a (by simp [ha]))]
    rfl

theorem bioOffsetsAux_allO_none :
    ∀ ps : List (Chars × Chars), (∀ q ∈ ps, q.2 = ['O']) →
      ∀ pos, bioOffsetsAux ps pos none = [] := by
  intro ps
  induction ps with
  | nil => intro _ _; rfl
  | cons q rest ih =>
    intro h pos
    obtain ⟨tok, tag⟩ := q
    have htag : tag = ['O'] := h (tok, tag) (by simp)
    subst htag
    have hstep : bioOffsetsAux ((tok, ['O']) :: rest) pos none
        = bioOffsetsAux rest (pos + tok.length + 1) none := rfl
    rw [hstep]
    exact ih (fun a ha => h a (by simp [ha])) _

theorem bioOffsetsAux_allO_some :
    ∀ ps : List (Chars × Chars), (∀ q ∈ ps, q.2 = ['O']) →
      ∀ pos s, bioOffsetsAux ps pos (some s) = [s] := by
  intro ps
  induction ps with
  | nil => intro _ _ _; rfl
  | cons q rest ih =>
    intro h pos s
    obtain ⟨tok, tag⟩ := q
    have htag : tag = ['O'] := h (tok, tag) (by simp)
    subst htag
    have hstep : bioOffsetsAux ((tok, ['O']) :: rest) pos (some s)
        = s :: bioOffsetsAux rest (pos + tok.length + 1) none := rfl
    rw [hstep, bioOffsetsAux_allO_none rest (fun a ha => h a (by simp [ha])) _]

theorem bioOffsetsAux_single :
    ∀ (ps1 : List (Chars × Chars)) (t ty : Chars) (ps2 : List (Chars × Chars)) (pos : Nat),
      (∀ q ∈ ps1, q.2 = ['O']) → (∀ q ∈ ps2, q.2 = ['O']) →
      bioOffsetsAux (ps1 ++ (t, 'B' :: '-' :: ty) :: ps2) pos none
        = [(pos + sumLen (ps1.map Prod.fst),
            pos + sumLen (ps1.map Prod.fst) + t.length, ty)] := by
  intro ps1
  induction ps1 with
  | nil =>
    intro t ty ps2 pos _ h2
    have hstep : bioOffsetsAux ((t, 'B' :: '-' :: ty) :: ps2) pos none
        = bioOffsetsAux ps2 (pos + t.length + 1) (some (pos, pos + t.length, ty)) := rfl
    rw [List.nil_append, hstep, bioOffsetsAux_allO_some ps2 h2]
    simp [sumLen]
  | cons q ps1 ih =>
    intro t ty ps2 pos h1 h2
    obtain ⟨tok, tag⟩ := q
    have htag : tag = ['O'] := h1 (tok, tag) (by simp)
    subst htag
    rw [List.cons_append]
    have hstep : bioOffsetsAux ((tok, ['O']) :: (ps1 ++ (t, 'B' :: '-' :: ty) :: ps2)) pos none
        = bioOffsetsAux (ps1 ++ (t, 'B' :: '-' :: ty) :: ps2) (pos + tok.length + 1) none := rfl
    rw [hstep, ih t ty ps2 _ (fun a ha => h1 a (by simp [ha])) h2]
    simp only [List.map_cons, sumLen, List.cons.injEq, Prod.mk.injEq, and_true]
    omega

theorem map_shift_shift (l : List (Chars × Nat)) (a b : Nat) :
    (l.map (fun p => (p.1, p.2 + a))).map (fun p => (p.1, p.2 + b))
      = l.map (fun p => (p.1, p.2 + (a + b))) := by
  rw [List.map_map]
  refine List.map_congr_left (fun p _ => ?_)
  simp only [Function.comp]
  exact congrArg _ (by omega)

theorem tws_map_fst : ∀ l : List Chars, (tws l).map Prod.fst = l := by
  intro l
  induction l with
  | nil => rfl
  | cons t rest ih =>
    show (t, 0).1 :: ((tws rest).map (fun p => (p.1, p.2 + (t.length + 1)))).map Prod.fst
      = t :: rest
    rw [List.map_map]
    refine congrArg _ ?_
    rw [show (Prod.fst ∘ fun p : Chars × Nat => (p.1, p.2 + (t.length + 1))) = Prod.fst from
      funext (fun p => rfl)]
    exact ih

theorem tws_append : ∀ l1 l2 : List Chars,
    tws (l1 ++ l2) = tws l1 ++ (tws l2).map (fun p => (p.1, p.2 + sumLen l1)) := by
  intro l1
  induction l1 with
  | nil =>
    intro l2
    show tws l2 = [] ++ (tws l2).map (fun p => (p.1, p.2 + sumLen []))
    rw [List.nil_append]
    simp [sumLen]
  | cons t l1 ih =>
    intro l2
    show (t, 0) :: (tws (l1 ++ l2)).map (fun p => (p.1, p.2 + (t.length + 1)))
      = ((t, 0) :: (tws l1).map (fun p => (p.1, p.2 + (t.length + 1))))
        ++ (tws l2).map (fun p => (p.1, p.2 + sumLen (t :: l1)))
    rw [ih l2, List.map_append, map_shift_shift, List.cons_append]
    refine congrArg _ (congrArg _ (List.map_congr_left (fun p _ => ?_)))
    show (p.1, p.2 + (sumLen l1 + (t.length + 1))) = (p.1, p.2 + sumLen (t :: l1))
    have harith : sumLen l1 + (t.length + 1) = sumLen (t :: l1) := by
      simp only [sumLen]
      omega
    rw [harith]

theorem tws_bound : ∀ l : List Chars, ∀ p ∈ tws l, p.2 + p.1.length + 1 ≤ sumLen l := by
  intro l
  induction l with
  | nil => intro p hp; cases hp
  | cons t rest ih =>
    intro p hp
    rcases List.mem_cons.mp hp with h | h
    · subst h
      simp only [sumLen]
      omega
    · obtain ⟨q, hq, hshift⟩ := List.mem_map.mp h
      have hb := ih q hq
      rw [← hshift]
      simp only [sumLen]
      omega

theorem tws_mem_fst {l : List Chars} {p : Chars × Nat} (hp : p ∈ tws l) : p.1 ∈ l := by
  have h := tws_map_fst l
  rw [← h]
  exact List.mem_map_of_mem Prod.fst hp

theorem wsTokAux_nonspace_step {c : Char} (hc : ¬c = ' ') (w : Chars) (pos : Nat)
    (a : Char) (as : Chars) (st : Nat) :
    wsTokAux (c :: w) pos (a :: as) st = wsTokAux w (pos + 1) (c :: a :: as) st := by
  simp only [wsTokAux]
  rw [if_neg hc]

theorem wsTokAux_start_step {c : Char} (hc : ¬c = ' ') (w : Chars) (pos st : Nat) :
    wsTokAux (c :: w) pos [] st = wsTokAux w (pos + 1) [c] pos := by
  simp only [wsTokAux]
  rw [if_neg hc]

theorem wsTokAux_space_step {acc : Chars} (hne : acc ≠ []) (w : Chars) (pos st : Nat) :
    wsTokAux (' ' :: w) pos acc st
      = (acc.reverse, st) :: wsTokAux w (pos + 1) [] 0 := by
  cases acc with
  | nil => exact absurd rfl hne
  | cons a as =>
    simp only [wsTokAux]
    simp

theorem wsTokAux_nil_ne {acc : Chars} (hne : acc ≠ []) (pos st : Nat) :
    wsTokAux [] pos acc st = [(acc.reverse, st)] := by
  cases acc with
  | nil => exact absurd rfl hne
  | cons a as => rfl

theorem wsTokAux_scan :
    ∀ t : Chars, (∀ c ∈ t, ¬c = ' ') →
      ∀ (w : Chars) (pos : Nat) (a : Char) (as : Chars) (st : Nat),
        wsTokAux (t ++ w) pos (a :: as) st
          = wsTokAux w (pos + t.length) (t.reverse ++ (a :: as)) st := by
  intro t
  induction t with
  | nil => intro _ w pos a as st; rfl
  | cons c t ih =>
    intro h w pos a as st
    have hc : ¬c = ' ' := h c (by simp)
    rw [List.cons_append, wsTokAux_nonspace_step hc]
    rw [ih (fun x hx => h x (by simp [hx])) w (pos + 1) c (a :: as) st]
    have harith : pos + 1 + t.length = pos + (c :: t).length := by
      simp only [List.length_cons]
      omega
    rw [harith, List.reverse_cons, List.append_assoc, List.singleton_append]

theorem wsTok_join :
    ∀ toks : List Chars, (∀ t ∈ toks, t ≠ [] ∧ ∀ c ∈ t, ¬c = ' ') →
      ∀ pos, wsTokAux (joinSep [' '] toks) pos [] 0
        = (tws toks).map (fun p => (p.1, p.2 + pos)) := by
  intro toks
  induction toks with
  | nil => intro _ pos; rfl
  | cons t rest ih =>
    intro h pos
    obtain ⟨hne, hsp⟩ := h t (by simp)
    cases t with
    | nil => exact absurd rfl hne
    | cons c t2 =>
      have hc : ¬c = ' ' := hsp c (by simp)
      have hsp2 : ∀ x ∈ t2, ¬x = ' ' := fun x hx => hsp x (by simp [hx])
      cases rest with
      | nil =>
        show wsTokAux (c :: t2) pos [] 0 = _
        rw [wsTokAux_start_step hc]
        have hscan := wsTokAux_scan t2 hsp2 [] (pos + 1) c [] pos
        rw [List.append_nil] at hscan
        rw [hscan, wsTokAux_nil_ne (by simp) _ _]
        simp only [tws, List.map_nil, List.map_cons, List.reverse_append,
          List.reverse_reverse, List.reverse_cons, List.reverse_nil, List.nil_append,
          List.singleton_append]
        rw [Nat.zero_add]
      | cons r rest2 =>
        rw [joinSep_cons_of_ne_nil [' '] (c :: t2) (by simp), List.append_assoc,
          List.cons_append, wsTokAux_start_step hc]
        rw [wsTokAux_scan t2 hsp2 ([' '] ++ joinSep [' '] (r :: rest2)) (pos + 1) c [] pos]
        rw [show ([' '] ++ joinSep [' '] (r :: rest2)) = ' ' :: joinSep [' '] (r :: rest2)
          from rfl]
        rw [wsTokAux_space_step (by simp)]
        rw [ih (fun x hx => h x (by simp [hx])) (pos + 1 + t2.length + 1)]
        show ((t2.reverse ++ [c]).reverse, pos)
            :: (tws (r :: rest2)).map (fun p => (p.1, p.2 + (pos + 1 + t2.length + 1)))
          = (tws ((c :: t2) :: r :: rest2)).map (fun p => (p.1, p.2 + pos))
        simp only [tws, List.map_cons, List.reverse_append, List.reverse_reverse,
          List.reverse_cons, List.reverse_nil, List.nil_append, List.singleton_append,
          map_shift_shift]
        congr 1
        · refine congrArg _ ?_
          omega
        congr 1
        · refine congrArg _ ?_
          simp only [List.length_cons]
          omega
        · refine List.map_congr_left (fun p _ => ?_)
          refine congrArg _ ?_
          simp only [List.length_cons]
          omega

/-- The modelled tokenizer recovers the tokens and their offsets of a
space-joined, space-free, nonempty token list. -/
theorem wsTok_join_eq_tws (toks : List Chars)
    (h : ∀ t ∈ toks, t ≠ [] ∧ ∀ c ∈ t, ¬c = ' ') :
    wsTok (joinSep [' '] toks) = tws toks := by
  unfold wsTok
  rw [wsTok_join toks h 0]
  refine (List.map_congr_left (fun p _ => rfl)).trans (List.map_id _)

theorem zip_map_const_map {α β γ : Type} :
    ∀ (l : List α) (g : α → β) (F : α × β → γ),
      (l.zip (l.map g)).map F = l.map (fun x => F (x, g x)) := by
  intro l
  induction l with
  | nil => intro g F; rfl
  | cons x xs ih =>
    intro g F
    show F (x, g x) :: (xs.zip (xs.map g)).map F = F (x, g x) :: xs.map (fun x => F (x, g x))
    rw [ih]

theorem tws_length (l : List Chars) : (tws l).length = l.length := by
  have h := tws_map_fst l
  calc (tws l).length = ((tws l).map Prod.fst).length := (List.length_map _ _).symm
    _ = l.length := by rw [h]

theorem list_map_const {α β : Type} :
    ∀ (l : List α) (b : β), l.map (fun _ => b) = List.replicate l.length b := by
  intro l b
  induction l with
  | nil => rfl
  | cons x xs ih =>
    show b :: xs.map (fun _ => b) = b :: List.replicate xs.length b
    rw [ih]

theorem decompose_tws (pre post : List Chars) (ent : Chars) :
    tws (pre ++ ent :: post)
      = tws pre ++ (ent, sumLen pre)
          :: (tws post).map (fun p => (p.1, p.2 + (sumLen pre + (ent.length + 1)))) := by
  rw [tws_append]
  show _ ++ ((ent, 0) :: (tws post).map (fun p => (p.1, p.2 + (ent.length + 1)))).map
      (fun p => (p.1, p.2 + sumLen pre)) = _
  rw [List.map_cons, map_shift_shift]
  refine congrArg _ ?_
  refine congrArg₂ _ ?_ ?_
  · rw [Nat.zero_add]
  · refine List.map_congr_left (fun p _ => congrArg _ (by omega))

theorem alignAll_single (pre post : List Chars) (ent ty : Chars) :
    alignAll (tws (pre ++ ent :: post)) [(sumLen pre, sumLen pre + ent.length, ty)]
      = some (List.replicate pre.length ['O']
          ++ ('B' :: '-' :: ty) :: List.replicate post.length ['O']) := by
  have hdec := decompose_tws pre post ent
  set toks := tws (pre ++ ent :: post) with htoks
  have hmem : (ent, sumLen pre) ∈ toks := by
    rw [hdec]
    exact List.mem_append_right _ (List.mem_cons_self _ _)
  have hstep : tagSpanStep toks (toks.map (fun _ => ['O']))
      (sumLen pre, sumLen pre + ent.length, ty)
      = some ((toks.zip (toks.map (fun _ => ['O']))).map (fun q =>
          if sumLen pre ≤ q.1.2 ∧ tokenEnd q.1 ≤ sumLen pre + ent.length then
            if q.1.2 = sumLen pre then 'B' :: '-' :: ty else 'I' :: '-' :: ty
          else q.2)) := by
    unfold tagSpanStep
    rw [if_pos]
    rw [Bool.and_eq_true]
    constructor
    · exact List.any_eq_true.mpr ⟨(ent, sumLen pre), hmem, by simp⟩
    · refine List.any_eq_true.mpr ⟨(ent, sumLen pre), hmem, ?_⟩
      show (tokenEnd (ent, sumLen pre) == sumLen pre + ent.length) = true
      unfold tokenEnd
      simp
  have hfold : alignAll toks [(sumLen pre, sumLen pre + ent.length, ty)]
      = tagSpanStep toks (toks.map (fun _ => ['O']))
          (sumLen pre, sumLen pre + ent.length, ty) := by
    unfold alignAll
    rw [List.foldlM_cons]
    cases h : tagSpanStep toks (toks.map (fun _ => ['O']))
        (sumLen pre, sumLen pre + ent.length, ty) with
    | none => rfl
    | some v => rfl
  rw [hfold, hstep, zip_map_const_map]
  refine congrArg _ ?_
  rw [hdec, List.map_append, List.map_cons]
  have hprepart : (tws pre).map (fun x : Chars × Nat =>
      if sumLen pre ≤ x.2 ∧ tokenEnd x ≤ sumLen pre + ent.length then
        (if x.2 = sumLen pre then 'B' :: '-' :: ty else 'I' :: '-' :: ty)
      else ['O']) = List.replicate pre.length ['O'] := by
    have h1 : ∀ x ∈ tws pre, (if sumLen pre ≤ x.2 ∧ tokenEnd x ≤ sumLen pre + ent.length then
        (if x.2 = sumLen pre then 'B' :: '-' :: ty else 'I' :: '-' :: ty)
      else (['O'] : Chars)) = ['O'] := by
      intro x hx
      have hb := tws_bound pre x hx
      rw [if_neg]
      unfold tokenEnd
      intro hcond
      omega
    rw [List.map_congr_left h1, list_map_const, tws_length]
  have hentpart : (if sumLen pre ≤ (ent, sumLen pre).2
        ∧ tokenEnd (ent, sumLen pre) ≤ sumLen pre + ent.length then
      (if (ent, sumLen pre).2 = sumLen pre then 'B' :: '-' :: ty else 'I' :: '-' :: ty)
    else (['O'] : Chars)) = 'B' :: '-' :: ty := by
    rw [if_pos, if_pos rfl]
    unfold tokenEnd
    exact ⟨Nat.le_refl _, Nat.le_refl _⟩
  have hpostpart : ((tws post).map
        (fun p => (p.1, p.2 + (sumLen pre + (ent.length + 1))))).map
      (fun x : Chars × Nat =>
        if sumLen pre ≤ x.2 ∧ tokenEnd x ≤ sumLen pre + ent.length then
          (if x.2 = sumLen pre then 'B' :: '-' :: ty else 'I' :: '-' :: ty)
        else ['O']) = List.replicate post.length ['O'] := by
    rw [List.map_map]
    have h1 : ∀ x ∈ tws post, ((fun x : Chars × Nat =>
        if sumLen pre ≤ x.2 ∧ tokenEnd x ≤ sumLen pre + ent.length then
          (if x.2 = sumLen pre then 'B' :: '-' :: ty else 'I' :: '-' :: ty)
        else (['O'] : Chars)) ∘
          (fun p => (p.1, p.2 + (sumLen pre + (ent.length + 1))))) x = ['O'] := by
      intro x _
      simp only [Function.comp]
      rw [if_neg]
      unfold tokenEnd
      intro hcond
      omega
    rw [List.map_congr_left h1, list_map_const, tws_length]
  rw [hprepart, hentpart, hpostpart]

theorem nlFromPairs_single (ty ent : Chars) :
    nlFromPairs [(ty, ent)] = ty ++ [' ', '-', '>', ' '] ++ ent := by
  simp [nlFromPairs, groupSpans, setdefaultApp, labelSeparator, label2entitySeparator,
    entitySeparator, joinSep, List.append_assoc]

theorem encodeRow_single (i2l : List (Nat × Chars)) (pre post : List Chars)
    (ent ty : Chars) (idB idO : Nat)
    (hB : lookupN i2l idB = some ('B' :: '-' :: ty))
    (hO : lookupN i2l idO = some ['O']) :
    encodeRow i2l (pre ++ ent :: post,
        List.replicate pre.length idO ++ idB :: List.replicate post.length idO)
      = .ok (joinSep [' '] (pre ++ ent :: post), ty ++ [' ', '-', '>', ' '] ++ ent) := by
  have hOB : idO ≠ idB := by
    intro h
    rw [h, hB] at hO
    simp at hO
  have hmapM : (List.replicate pre.length idO ++ idB :: List.replicate post.length idO).mapM
      (fun i => match lookupN i2l i with
        | some t => Except.ok t
        | none => Except.error keyErrId)
      = .ok (List.replicate pre.length ['O']
          ++ ('B' :: '-' :: ty) :: List.replicate post.length ['O']) := by
    have hpt : ∀ i ∈ List.replicate pre.length idO ++ idB :: List.replicate post.length idO,
        (fun i => match lookupN i2l i with
          | some t => Except.ok t
          | none => Except.error keyErrId) i
          = Except.ok (if i = idB then 'B' :: '-' :: ty else ['O']) := by
      intro i hi
      have hio : i = idO ∨ i = idB := by
        rcases List.mem_append.mp hi with h | h
        · exact Or.inl (List.eq_of_mem_replicate h)
        · rcases List.mem_cons.mp h with h | h
          · exact Or.inr h
          · exact Or.inl (List.eq_of_mem_replicate h)
      rcases hio with h | h
      · subst h
        show (match lookupN i2l i with
          | some t => Except.ok t
          | none => Except.error keyErrId) = _
        rw [hO, if_neg hOB]
      · subst h
        show (match lookupN i2l i with
          | some t => Except.ok t
          | none => Except.error keyErrId) = _
        rw [hB, if_pos rfl]
    rw [exceptMapM_map _ _ _ hpt]
    rw [List.map_append, List.map_replicate, List.map_cons, List.map_replicate]
    rw [if_neg hOB, if_pos rfl]
  have hzip : (pre ++ ent :: post).zip
      (List.replicate pre.length ['O'] ++ ('B' :: '-' :: ty) :: List.replicate post.length ['O'])
      = pre.zip (List.replicate pre.length ['O'])
        ++ (ent, 'B' :: '-' :: ty) :: post.zip (List.replicate post.length ['O']) := by
    rw [List.zip_append (by rw [List.length_replicate])]
    rfl
  have hoffs : bioOffsetsAux
      ((pre ++ ent :: post).zip
        (List.replicate pre.length ['O']
          ++ ('B' :: '-' :: ty) :: List.replicate post.length ['O'])) 0 none
      = [(sumLen pre, sumLen pre + ent.length, ty)] := by
    rw [hzip]
    have h1 : ∀ q ∈ pre.zip (List.replicate pre.length (['O'] : Chars)), q.2 = ['O'] := by
      intro q hq
      obtain ⟨a, b⟩ := q
      exact List.eq_of_mem_replicate (List.of_mem_zip hq).2
    have h2 : ∀ q ∈ post.zip (List.replicate post.length (['O'] : Chars)), q.2 = ['O'] := by
      intro q hq
      obtain ⟨a, b⟩ := q
      exact List.eq_of_mem_replicate (List.of_mem_zip hq).2
    rw [bioOffsetsAux_single _ ent ty _ 0 h1 h2]
    rw [List.map_fst_zip pre _ (by rw [List.length_replicate])]
    rw [Nat.zero_add]
  unfold encodeRow
  rw [hmapM]
  show Except.bind _ _ = _
  simp only [Except.bind]
  rw [hoffs, List.map_singleton]
  rw [slice_entity pre post ent]
  rw [nlFromPairs_single]

theorem tws_map_fst_lam (l : List Chars) : (tws l).map (fun p => p.1) = l := tws_map_fst l

theorem decode_single (i2l : List (Nat × Chars)) (pre post : List Chars)
    (ent ty : Chars) (idB2 idO2 : Nat)
    (hpre : ∀ t ∈ pre, t ≠ [] ∧ ∀ c ∈ t, isSpaceChar c = false)
    (hpost : ∀ t ∈ post, t ≠ [] ∧ ∀ c ∈ t, isSpaceChar c = false)
    (hent1 : ent ≠ []) (hent2 : ∀ c ∈ ent, isSpaceChar c = false)
    (hent3 : (',' : Char) ∉ ent) (hent4 : ('-' : Char) ∉ ent)
    (hty1 : ty ≠ []) (hty2 : ∀ c ∈ ty, isSpaceChar c = false) (hty3 : ('-' : Char) ∉ ty)
    (hfind : strFind (toLowerL (joinSep [' '] (pre ++ ent :: post))) (toLowerL ent)
        = some (sumLen pre))
    (hB2 : lookupS (label2idOf i2l) ('B' :: '-' :: ty) = some idB2)
    (hO2 : lookupS (label2idOf i2l) ['O'] = some idO2) :
    spansToTokenLabels i2l
        [(joinSep [' '] (pre ++ ent :: post), ty ++ [' ', '-', '>', ' '] ++ ent)]
      = .ok [(pre ++ ent :: post,
          List.replicate pre.length idO2 ++ idB2 :: List.replicate post.length idO2)] := by
  have hnlne : (ty ++ [' ', '-', '>', ' '] ++ ent) ≠ [] := by
    intro h
    have h1 := List.append_eq_nil.mp h
    have h2 := List.append_eq_nil.mp h1.1
    exact hty1 h2.1
  have hn_nl : ('\n' : Char) ∉ (ty ++ [' ', '-', '>', ' '] ++ ent) := by
    intro hm
    rcases List.mem_append.mp hm with hm | hm
    · rcases List.mem_append.mp hm with hm | hm
      · exact absurd (hty2 '\n' hm) (by decide)
      · exact absurd hm (by decide)
    · exact absurd (hent2 '\n' hm) (by decide)
  have hshape : ty ++ [' ', '-', '>', ' '] ++ ent
      = (ty ++ [' ']) ++ '-' :: '>' :: ' ' :: ent := by
    simp [List.append_assoc]
  have hdx : ('-' : Char) ∉ ty ++ [' '] := by
    intro hm
    rcases List.mem_append.mp hm with hm | hm
    · exact hty3 hm
    · exact absurd hm (by decide)
  have hdy : ('-' : Char) ∉ ' ' :: ent := by
    intro hm
    rcases List.mem_cons.mp hm with hm | hm
    · exact absurd hm (by decide)
    · exact hent4 hm
  have hcy : (',' : Char) ∉ ' ' :: ent := by
    intro hm
    rcases List.mem_cons.mp hm with hm | hm
    · exact absurd hm (by decide)
    · exact hent3 hm
  have hsplit2 : split2 '-' '>' (ty ++ [' ', '-', '>', ' '] ++ ent)
      = [ty ++ [' '], ' ' :: ent] := by
    rw [hshape]
    exact split2_once (ty ++ [' ']) (' ' :: ent) hdx hdy
  have hparseLine : parseLine (ty ++ [' ', '-', '>', ' '] ++ ent)
      = .ok (ty, [toLowerL ent]) := by
    unfold parseLine
    rw [hsplit2]
    show Except.ok (trimL (ty ++ [' ']),
      (split2 ',' ' ' (' ' :: ent)).map (fun x => toLowerL (trimL x))) = _
    rw [trimL_append_space hty1 hty2, split2_of_not_mem hcy, List.map_singleton,
      trimL_cons_space hent2]
  have hparseLabel : parseLabel (ty ++ [' ', '-', '>', ' '] ++ ent)
      = .ok [(ty, [toLowerL ent])] := by
    unfold parseLabel
    rw [split1_of_not_mem hn_nl, List.mapM_cons, hparseLine]
    rfl
  have hcollect : collectSpans (joinSep [' '] (pre ++ ent :: post)) [(ty, [toLowerL ent])]
      = [(sumLen pre, sumLen pre + ent.length, ty)] := by
    simp only [collectSpans, List.foldl_cons, List.foldl_nil, addEntitySpans, hfind,
      toLowerL_length, List.nil_append]
  have hwf : ∀ t ∈ pre ++ ent :: post, t ≠ [] ∧ ∀ c ∈ t, ¬c = ' ' := by
    have hconv : ∀ (t : Chars), (∀ c ∈ t, isSpaceChar c = false) → ∀ c ∈ t, ¬c = ' ' := by
      intro t h c hc hceq
      subst hceq
      exact absurd (h ' ' hc) (by decide)
    intro t ht
    rcases List.mem_append.mp ht with h | h
    · exact ⟨(hpre t h).1, hconv t (hpre t h).2⟩
    · rcases List.mem_cons.mp h with h | h
      · subst h
        exact ⟨hent1, hconv t hent2⟩
      · exact ⟨(hpost t h).1, hconv t (hpost t h).2⟩
  have htok : wsTok (joinSep [' '] (pre ++ ent :: post)) = tws (pre ++ ent :: post) :=
    wsTok_join_eq_tws _ hwf
  have hBO2ne : (['O'] : Chars) ≠ 'B' :: '-' :: ty := by
    intro h
    injection h with h1 _
    exact absurd h1 (by decide)
  have hmapM2 : (List.replicate pre.length ['O']
        ++ ('B' :: '-' :: ty) :: List.replicate post.length ['O']).mapM
      (fun t => match lookupS (label2idOf i2l) t with
        | some i => Except.ok i
        | none => Except.error keyErrLabel)
      = .ok (List.replicate pre.length idO2 ++ idB2 :: List.replicate post.length idO2) := by
    have hpt : ∀ t ∈ List.replicate pre.length (['O'] : Chars)
        ++ ('B' :: '-' :: ty) :: List.replicate post.length ['O'],
        (fun t => match lookupS (label2idOf i2l) t with
          | some i => Except.ok i
          | none => Except.error keyErrLabel) t
          = Except.ok (if t = 'B' :: '-' :: ty then idB2 else idO2) := by
      intro t ht
      have hto : t = ['O'] ∨ t = 'B' :: '-' :: ty := by
        rcases List.mem_append.mp ht with h | h
        · exact Or.inl (List.eq_of_mem_replicate h)
        · rcases List.mem_cons.mp h with h | h
          · exact Or.inr h
          · exact Or.inl (List.eq_of_mem_replicate h)
      rcases hto with h | h
      · subst h
        show (match lookupS (label2idOf i2l) ['O'] with
          | some i => Except.ok i
          | none => Except.error keyErrLabel) = _
        rw [hO2, if_neg hBO2ne]
      · subst h
        show (match lookupS (label2idOf i2l) ('B' :: '-' :: ty) with
          | some i => Except.ok i
          | none => Except.error keyErrLabel) = _
        rw [hB2, if_pos rfl]
    rw [exceptMapM_map _ _ _ hpt]
    rw [List.map_append, List.map_replicate, List.map_cons, List.map_replicate]
    rw [if_neg hBO2ne, if_pos rfl]
  have hrow : processRow (label2idOf i2l)
      (joinSep [' '] (pre ++ ent :: post), ty ++ [' ', '-', '>', ' '] ++ ent)
      = .ok (some (pre ++ ent :: post,
          List.replicate pre.length idO2 ++ idB2 :: List.replicate post.length idO2)) := by
    unfold processRow
    dsimp only
    rw [if_neg (by rw [List.isEmpty_iff]; exact hnlne)]
    rw [hparseLabel]
    show Except.bind (Except.ok [(ty, [toLowerL ent])]) _ = _
    simp only [Except.bind]
    rw [hcollect, htok, alignAll_single pre post ent ty]
    dsimp only
    rw [hmapM2]
    show Except.bind (Except.ok _) _ = _
    simp only [Except.bind]
    rw [tws_map_fst_lam]
  unfold spansToTokenLabels
  have hrows : processRows (label2idOf i2l)
      [(joinSep [' '] (pre ++ ent :: post), ty ++ [' ', '-', '>', ' '] ++ ent)]
      = .ok [(pre ++ ent :: post,
          List.replicate pre.length idO2 ++ idB2 :: List.replicate post.length idO2)] := by
    unfold processRows
    rw [hrow]
    rfl
  rw [hrows]
  show Except.bind (Except.ok _) _ = _
  simp only [Except.bind]
  rw [List.filter_cons_of_pos (by simp)]
  rfl

/-- C2: best-effort round trip on a simple single-entity example.  The
example has tokens `pre ++ ent :: post` with the single entity `ent` of type
`ty` (tokens nonempty and whitespace-free; the entity and type free of the
reserved separator characters, per the spec §3 wire-format invariant), and
the entity text is unique and substring-unambiguous: the first
case-insensitive occurrence of the lower-cased entity in the lower-cased
reconstructed text is the entity's own position (`hfind`).  Then encoding
with `token_labels_to_spans` produces the natural-language label
`"{ty} -> {ent}"` over the reconstructed text, and decoding it back with
`spans_to_token_labels` recovers the same entity type at a token span
covering the same text: the same token position carries the `B-{ty}` tag id
and every other token is tagged `O` (token ids per the inverse vocabulary;
token boundaries are the re-tokenizer's). -/
theorem c2_roundtrip (i2l : List (Nat × Chars)) (pre post : List Chars)
    (ent ty : Chars) (idB idO idB2 idO2 : Nat)
    (hpre : ∀ t ∈ pre, t ≠ [] ∧ ∀ c ∈ t, isSpaceChar c = false)
    (hpost : ∀ t ∈ post, t ≠ [] ∧ ∀ c ∈ t, isSpaceChar c = false)
    (hent1 : ent ≠ []) (hent2 : ∀ c ∈ ent, isSpaceChar c = false)
    (hent3 : (',' : Char) ∉ ent) (hent4 : ('-' : Char) ∉ ent)
    (hty1 : ty ≠ []) (hty2 : ∀ c ∈ ty, isSpaceChar c = false) (hty3 : ('-' : Char) ∉ ty)
    (hB : lookupN i2l idB = some ('B' :: '-' :: ty))
    (hO : lookupN i2l idO = some ['O'])
    (hfind : strFind (toLowerL (joinSep [' '] (pre ++ ent :: post))) (toLowerL ent)
        = some (sumLen pre))
    (hB2 : lookupS (label2idOf i2l) ('B' :: '-' :: ty) = some idB2)
    (hO2 : lookupS (label2idOf i2l) ['O'] = some idO2) :
    encodeRow i2l (pre ++ ent :: post,
        List.replicate pre.length idO ++ idB :: List.replicate post.length idO)
      = .ok (joinSep [' '] (pre ++ ent :: post), ty ++ [' ', '-', '>', ' '] ++ ent)
    ∧ spansToTokenLabels i2l
        [(joinSep [' '] (pre ++ ent :: post), ty ++ [' ', '-', '>', ' '] ++ ent)]
      = .ok [(pre ++ ent :: post,
          List.replicate pre.length idO2 ++ idB2 :: List.replicate post.length idO2)] :=
  ⟨encodeRow_single i2l pre post ent ty idB idO hB hO,
   decode_single i2l pre post ent ty idB2 idO2 hpre hpost hent1 hent2 hent3 hent4
     hty1 hty2 hty3 hfind hB2 hO2⟩

/-- Witness for C2: the round trip on spec Example 2 — tokens
`John lives in Berlin` with the single `PER` entity `John` encode to
`"PER -> John"` and decode back to the same tokens with `John` tagged
`B-PER` (id 1) and every other token `O` (id 0). -/
theorem c2_witness :
    encodeRow demoVocab (["John".data, "lives".data, "in".data, "Berlin".data], [1, 0, 0, 0])
      = .ok ("John lives in Berlin".data, "PER -> John".data)
    ∧ spansToTokenLabels demoVocab [("John lives in Berlin".data, "PER -> John".data)]
      = .ok [(["John".data, "lives".data, "in".data, "Berlin".data], [1, 0, 0, 0])] :=
  c2_roundtrip demoVocab [] ["lives".data, "in".data, "Berlin".data]
    ("John".data) ("PER".data) 1 0 1 0
    (by decide) (by decide) (by decide) (by decide) (by decide) (by decide)
    (by decide) (by decide) (by decide) (by decide) (by decide) (by decide)
    (by decide) (by decide)

end TokenClassification
